import Mathlib

/-!
Percolation: the sequential stencil kernel, its convergence driver and the map
generator.

A shallow embedding of `src/c/perc_cpu.cpp`, with the comparison of `src/c/test.cpp`
and the map generator `fill_map` of `src/c/util.cpp`.

* A buffer (`int*` of `(M+2)*(N+2)` cells) is a `List Int`, addressed by the flat
  offset `i*(N+2) + j` of the C macro `get`.
* `percolate_cpu_step` threads the pair `(next, nchange)` through the two nested
  `for` loops of the source.
* `percolate_cpu` threads a `Loop` record (both buffers, which of them `current`
  points to, `step`, `nchange`) through the `while` loop.
* `specStep` is the update rule of the specification as a pure function on grids;
  the driver is compared with its iterates.
* `fill_map` threads a `Fill` record (the map, `nhole`, the number of draws made)
  through its loops; the random draws enter as the sequence of outcomes of the test
  `r < porosity`.
* `percolate_cpu_step_checked` is the step with every array access bounds-checked.
* `percolate_gpu` is declared in `perc_gpu.h` but its code is not among the sources;
  the parallel backend is modelled from the specification, with the order in which
  the per-cell units of work complete left arbitrary.

The kernel only compares and maximises cell labels, and `fill_map` numbers at most
`M*N` holes, so `Int` carries the labels without loss.  The sizes `M`, `N`, the offsets and the counters are `Nat`: the
embedding covers the inputs on which the `int` expressions `(M+2)*(N+2)` and
`4*max(M,N)+1` of the source do not overflow.
-/

namespace Percolation

/-- The macro `get(array, i, j)`, i.e. `array[(i)*(N+2) + j]`, as a read. -/
def get (N : Nat) (array : List Int) (i j : Nat) : Int :=
  array.getD (i * (N + 2) + j) 0

/-- The value `newval` that the loop body computes for cell `(i, j)` of `state`. -/
def newval (N : Nat) (state : List Int) (i j : Nat) : Int :=
  let oldval := get N state i j
  if oldval ≠ 0 then
    max (max (max (max oldval (get N state (i - 1) j)) (get N state (i + 1) j))
      (get N state i (j - 1))) (get N state i (j + 1))
  else oldval

/-- One execution of the body of the inner `for` loop at cell `(i, j)`:
the pair threaded through is `(next, nchange)`. -/
def cellBody (N : Nat) (state : List Int) (acc : List Int × Nat) (c : Nat × Nat) :
    List Int × Nat :=
  let oldval := get N state c.1 c.2
  let nv := newval N state c.1 c.2
  let nchange := if oldval ≠ 0 ∧ nv ≠ oldval then acc.2 + 1 else acc.2
  (acc.1.set (c.1 * (N + 2) + c.2) nv, nchange)

/-- The inner loop `for (int j = 1; j <= N; ++j)` of row `i`. -/
def rowLoop (N : Nat) (state : List Int) (acc : List Int × Nat) (i : Nat) :
    List Int × Nat :=
  (List.range' 1 N).foldl (fun a j => cellBody N state a (i, j)) acc

/-- The function `percolate_cpu_step`: the outer loop `for (int i = 1; i <= M; ++i)`
started from `nchange = 0`.  Returns the buffer `next` as written and the count. -/
def percolate_cpu_step (M N : Nat) (state next : List Int) : List Int × Nat :=
  (List.range' 1 M).foldl (fun a i => rowLoop N state a i) (next, 0)

/-- The state of the `while` loop of `percolate_cpu`. -/
structure Loop where
  /-- The contents of the caller's buffer `state`. -/
  state : List Int
  /-- The contents of the work array `temp`. -/
  temp : List Int
  /-- Whether the pointer `current` equals `state` (then `next` is `temp`). -/
  curIsState : Bool
  /-- The counter `step`. -/
  step : Nat
  /-- The variable `nchange`. -/
  nchange : Nat
deriving DecidableEq

/-- The buffer `current` points to. -/
def Loop.current (s : Loop) : List Int := if s.curIsState then s.state else s.temp

/-- The buffer `next` points to. -/
def Loop.next (s : Loop) : List Int := if s.curIsState then s.temp else s.state

/-- The body of the `while` loop: one step from `current` into `next`, then the
pointer swap and `step++` (the progress `printf` has no effect on the state). -/
def loopBody (M N : Nat) (s : Loop) : Loop :=
  let r := percolate_cpu_step M N s.current s.next
  { state := if s.curIsState then s.state else r.1
    temp := if s.curIsState then r.1 else s.temp
    curIsState := !s.curIsState
    step := s.step + 1
    nchange := r.2 }

/-- The loop condition `nchange && step <= maxstep`. -/
def loopCond (maxstep : Nat) (s : Loop) : Bool :=
  s.nchange != 0 && decide (s.step ≤ maxstep)

/-- The `while` loop, unrolled at most `fuel` times. -/
def whileLoop (M N maxstep : Nat) : Nat → Loop → Loop
  | 0, s => s
  | fuel + 1, s =>
    if loopCond maxstep s then whileLoop M N maxstep fuel (loopBody M N s) else s

/-- The call `memcpy(dst, src, sizeof(int) * n)`: the first `n` cells of `dst`
are replaced by those of `src`. -/
def memcpy (dst src : List Int) (n : Nat) : List Int :=
  src.take n ++ dst.drop n

/-- The loop state on entry to the `while` loop: `temp` is a zero-initialised
vector of `npoints` cells that receives a copy of `state`; `step = 1`,
`nchange = 1`, `current = state`, `next = temp`. -/
def initLoop (M N : Nat) (state : List Int) : Loop :=
  let npoints := (M + 2) * (N + 2)
  { state := state
    temp := memcpy (List.replicate npoints 0) state npoints
    curIsState := true
    step := 1
    nchange := 1 }

/-- The loop state on exit from the `while` loop of `percolate_cpu`.  The loop
runs at most `maxstep` times, so `maxstep` unrollings are the whole loop
(`exitLoop_spec`). -/
def exitLoop (M N : Nat) (state : List Int) : Loop :=
  let maxstep := 4 * max M N
  whileLoop M N maxstep maxstep (initLoop M N state)

/-- The function `percolate_cpu`: the contents of the caller's buffer `state`
on return. -/
def percolate_cpu (M N : Nat) (state : List Int) : List Int :=
  let npoints := (M + 2) * (N + 2)
  let s := exitLoop M N state
  if s.curIsState then s.state else memcpy s.state s.temp npoints

/-- The number of times the body of the `while` loop ran: `step` starts at 1 and
is incremented once per iteration. -/
def stepsExecuted (M N : Nat) (state : List Int) : Nat :=
  (exitLoop M N state).step - 1


/-- The loop state of `percolate_cpu` after `n` executions of the loop body. -/
def afterSteps (M N : Nat) (state : List Int) (n : Nat) : Loop :=
  (loopBody M N)^[n] (initLoop M N state)

/-- The change count reported by the `n`-th step (`n ≥ 1`) of the iteration started
on `state`. -/
def changeCount (M N : Nat) (state : List Int) (n : Nat) : Nat :=
  (afterSteps M N state n).nchange

/-- The active cells `(i, j)`, `1 ≤ i ≤ M`, `1 ≤ j ≤ N`, in the row-major order of the scan. -/
def activeCells (M N : Nat) : List (Nat × Nat) :=
  (List.range' 1 M).flatMap (fun i => (List.range' 1 N).map (fun j => (i, j)))

/-- Whether the loop body at cell `c` increments `nchange`. -/
def bumps (N : Nat) (state : List Int) (c : Nat × Nat) : Bool :=
  decide (get N state c.1 c.2 ≠ 0 ∧ newval N state c.1 c.2 ≠ get N state c.1 c.2)

/-- Whether the flat offset `p` is that of an active cell: row `p / (N+2)` in `1..M`
and column `p % (N+2)` in `1..N`. -/
def activeIdx (M N p : Nat) : Prop :=
  (1 ≤ p / (N + 2) ∧ p / (N + 2) ≤ M) ∧ (1 ≤ p % (N + 2) ∧ p % (N + 2) ≤ N)

instance (M N p : Nat) : Decidable (activeIdx M N p) := by
  unfold activeIdx
  exact inferInstance

/-- The update rule as the specification words it (section 4.2): a solid cell stays 0,
a fluid cell becomes the maximum of itself and its four neighbours. -/
def specCell (N : Nat) (g : List Int) (i j : Nat) : Int :=
  if get N g i j = 0 then 0
  else max (get N g i j) (max (get N g (i - 1) j) (max (get N g (i + 1) j)
    (max (get N g i (j - 1)) (get N g i (j + 1)))))

/-- One application of the specification's update rule to a whole grid, as a pure
function: every active cell gets `specCell`, every other cell (the halo) is carried
over unchanged. -/
def specStep (M N : Nat) (g : List Int) : List Int :=
  (List.range g.length).map (fun p =>
    if activeIdx M N p then specCell N g (p / (N + 2)) (p % (N + 2)) else g.getD p 0)

/-- Cells `a` and `b` are 4-adjacent (von Neumann neighbours). -/
def adjacent (a b : Nat × Nat) : Prop :=
  (a.1 = b.1 ∧ (a.2 + 1 = b.2 ∨ b.2 + 1 = a.2)) ∨ (a.2 = b.2 ∧ (a.1 + 1 = b.1 ∨ b.1 + 1 = a.1))

/-- A fluid cell of the grid `g`: an active cell with a non-zero label. -/
def fluid (M N : Nat) (g : List Int) (c : Nat × Nat) : Prop :=
  c ∈ activeCells M N ∧ get N g c.1 c.2 ≠ 0

/-- One move between 4-adjacent fluid cells of `g`. -/
def fluidAdj (M N : Nat) (g : List Int) (a b : Nat × Nat) : Prop :=
  fluid M N g a ∧ fluid M N g b ∧ adjacent a b

instance (M N : Nat) (g : List Int) (c : Nat × Nat) : Decidable (fluid M N g c) := by
  unfold fluid
  exact inferInstance

instance (M N : Nat) (g : List Int) (a b : Nat × Nat) : Decidable (fluidAdj M N g a b) := by
  unfold fluidAdj adjacent
  exact inferInstance

/-- The fluid cells `a` and `b` lie in the same 4-connected fluid cluster of `g`:
a chain of moves between adjacent fluid cells leads from `a` to `b`. -/
def sameCluster (M N : Nat) (g : List Int) (a b : Nat × Nat) : Prop :=
  fluid M N g a ∧ Relation.ReflTransGen (fluidAdj M N g) a b

/-- A valid initial grid: `(M+2)*(N+2)` cells, the halo 0, every active cell 0 (solid)
or positive (fluid), and the fluid labels pairwise distinct. -/
structure ValidGrid (M N : Nat) (g : List Int) : Prop where
  /-- The buffer has `(M+2)*(N+2)` cells. -/
  size : g.length = (M + 2) * (N + 2)
  /-- Row 0, row `M+1`, column 0 and column `N+1` hold 0. -/
  halo : ∀ i, i ≤ M + 1 → ∀ j, j ≤ N + 1 →
    (i = 0 ∨ i = M + 1 ∨ j = 0 ∨ j = N + 1) → get N g i j = 0
  /-- Active cells hold 0 or a positive label. -/
  nonneg : ∀ c ∈ activeCells M N, 0 ≤ get N g c.1 c.2
  /-- Two fluid cells with the same label are the same cell. -/
  distinct : ∀ a ∈ activeCells M N, ∀ b ∈ activeCells M N,
    get N g a.1 a.2 ≠ 0 → get N g a.1 a.2 = get N g b.1 b.2 → a = b

/-- A 7x7 map with one serpentine fluid cluster of 31 cells, labelled 1..31 in
row-major order the way `fill_map` numbers holes. -/
def snake7 : List Int :=
  [ 0,  0,  0,  0,  0,  0,  0,  0,  0,
    0,  1,  2,  3,  4,  5,  6,  7,  0,
    0,  8,  0,  0,  0,  0,  0,  0,  0,
    0,  9, 10, 11, 12, 13, 14, 15,  0,
    0,  0,  0,  0,  0,  0,  0, 16,  0,
    0, 17, 18, 19, 20, 21, 22, 23,  0,
    0, 24,  0,  0,  0,  0,  0,  0,  0,
    0, 25, 26, 27, 28, 29, 30, 31,  0,
    0,  0,  0,  0,  0,  0,  0,  0,  0]

/-- The serpentine of `snake7` walked from cell (1, 7) to cell (7, 7); the first cell
is left out. -/
def snake7Path : List (Nat × Nat) :=
  [(1, 6), (1, 5), (1, 4), (1, 3), (1, 2), (1, 1), (2, 1), (3, 1), (3, 2), (3, 3),
   (3, 4), (3, 5), (3, 6), (3, 7), (4, 7), (5, 7), (5, 6), (5, 5), (5, 4), (5, 3),
   (5, 2), (5, 1), (6, 1), (7, 1), (7, 2), (7, 3), (7, 4), (7, 5), (7, 6), (7, 7)]

/-- Whether the list `l` continues the cell `a` to a walk along adjacent fluid
cells of `g` that ends in `b`. -/
def walkOk (M N : Nat) (g : List Int) (a : Nat × Nat) (l : List (Nat × Nat)) (b : Nat × Nat) :
    Bool :=
  match l with
  | [] => decide (a = b)
  | c :: l => decide (fluidAdj M N g a c) && walkOk M N g c l b

/-- The 1x5 strip labelled 1..5 with its halo. -/
def strip5 : List Int :=
  [0, 0, 0, 0, 0, 0, 0,
   0, 1, 2, 3, 4, 5, 0,
   0, 0, 0, 0, 0, 0, 0]

/-- A 2x2 grid with one solid cell, (1, 2), among three fluid cells. -/
def grid2 : List Int :=
  [0, 0, 0, 0,
   0, 1, 0, 0,
   0, 2, 3, 0,
   0, 0, 0, 0]

/-- The 1x1 grid with a single fluid cell labelled 1 and a zero halo. -/
def cell1 : List Int :=
  [0, 0, 0,
   0, 1, 0,
   0, 0, 0]

/-- A 3x3 buffer whose halo cell (0, 1) holds 7. -/
def dirtyHalo : List Int :=
  [0, 7, 0,
   0, 0, 0,
   0, 0, 0]

/-- Modelled from the spec: the unit of work of the parallel kernel for one active cell
(sections 4.2 and 5; `percolate_gpu` is only declared, in `perc_gpu.h`).  It reads the
frozen buffer `current` and writes the update rule's value to its own cell of `next`. -/
def gpuUnit (N : Nat) (current next : List Int) (c : Nat × Nat) : List Int :=
  next.set (c.1 * (N + 2) + c.2) (specCell N current c.1 c.2)

/-- Modelled from the spec: one step of the parallel kernel, which is missing from the
sources.  The units of work complete in the order `sched`, an arbitrary ordering of the
active cells; once all have completed, the change count is the sum, over the units, of
1 for each cell where `next` differs from `current`. -/
def percolate_gpu_step (N : Nat) (sched : List (Nat × Nat)) (current next : List Int) :
    List Int × Nat :=
  let written := sched.foldl (gpuUnit N current) next
  (written,
    (sched.map (fun c => if get N written c.1 c.2 ≠ get N current c.1 c.2 then 1 else 0)).sum)

/-- Modelled from the spec: the loop body of the parallel backend's convergence driver
(section 4.3), which is missing from the sources: one parallel step from `current`
into `next` under the schedule of this step, then the swap of the buffer roles. -/
def gpuLoopBody (N : Nat) (sched : Nat → List (Nat × Nat)) (s : Loop) : Loop :=
  let r := percolate_gpu_step N (sched s.step) s.current s.next
  { state := if s.curIsState then s.state else r.1
    temp := if s.curIsState then r.1 else s.temp
    curIsState := !s.curIsState
    step := s.step + 1
    nchange := r.2 }

/-- Modelled from the spec: the convergence loop of the parallel backend, with the
termination predicate shared by both backends, unrolled at most `fuel` times. -/
def gpuWhileLoop (N maxstep : Nat) (sched : Nat → List (Nat × Nat)) : Nat → Loop → Loop
  | 0, s => s
  | fuel + 1, s =>
    if loopCond maxstep s then gpuWhileLoop N maxstep sched fuel (gpuLoopBody N sched s)
    else s

/-- Modelled from the spec: the entry point `percolate_gpu` of the parallel backend,
declared in `perc_gpu.h` and missing from the sources.  It has the contract of
`percolate_cpu`: scratch buffer, loop up to `4*max(M,N)` steps, and the final grid
placed in the caller's buffer.  `sched n` is the order in which the units of step `n`
complete. -/
def percolate_gpu (M N : Nat) (sched : Nat → List (Nat × Nat)) (state : List Int) :
    List Int :=
  let npoints := (M + 2) * (N + 2)
  let maxstep := 4 * max M N
  let s := gpuWhileLoop N maxstep sched maxstep (initLoop M N state)
  if s.curIsState then s.state else memcpy s.state s.temp npoints

/-- The count `ndiff` of `main` in `test.cpp`: `std::inner_product` over the two final
grids, adding 1 for each position where they differ. -/
def ndiff (cpu_state gpu_state : List Int) : Nat :=
  (cpu_state.zip gpu_state).foldl (fun acc ab => acc + (if ab.1 = ab.2 then 0 else 1)) 0

/-- A schedule that runs the units in row-major order on even steps and in the
reverse order on odd steps. -/
def zigzagSched (M N : Nat) (n : Nat) : List (Nat × Nat) :=
  if n % 2 = 0 then activeCells M N else (activeCells M N).reverse

/-- The first loop of `fill_map`, `for (int j = 0; j < N+2; ++j)`: the cells of row 0
and of row `M+1` are set to 0. -/
def zeroRows (M N : Nat) (map : List Int) : List Int :=
  (List.range (N + 2)).foldl
    (fun m j => (m.set (0 * (N + 2) + j) 0).set ((M + 1) * (N + 2) + j) 0) map

/-- The second loop of `fill_map`, `for (int i = 1; i < M+1; ++i)`: the cells of
column 0 and of column `N+1` are set to 0. -/
def zeroCols (M N : Nat) (map : List Int) : List Int :=
  (List.range' 1 M).foldl
    (fun m i => (m.set (i * (N + 2) + 0) 0).set (i * (N + 2) + (N + 1)) 0) map

/-- The state threaded through the filling loops of `fill_map`. -/
structure Fill where
  /-- The contents of the buffer `map`. -/
  map : List Int
  /-- The counter `nhole`. -/
  nhole : Nat
  /-- The number of calls `uni(gen)` made so far. -/
  drawn : Nat

/-- The body of the inner filling loop at cell `c`.  The generator and the porosity
enter only through the outcome of the test `r < porosity`: `hole t` is that outcome
for the `t`-th draw `uni(gen)` (counted from 0). -/
def fillBody (hole : Nat → Bool) (N : Nat) (s : Fill) (c : Nat × Nat) : Fill :=
  if hole s.drawn then
    { map := s.map.set (c.1 * (N + 2) + c.2) ((s.nhole + 1 : Nat) : Int)
      nhole := s.nhole + 1
      drawn := s.drawn + 1 }
  else
    { map := s.map.set (c.1 * (N + 2) + c.2) 0
      nhole := s.nhole
      drawn := s.drawn + 1 }

/-- The inner filling loop `for (int j = 1; j < N+1; ++j)` of row `i`. -/
def fillRow (hole : Nat → Bool) (N : Nat) (s : Fill) (i : Nat) : Fill :=
  (List.range' 1 N).foldl (fun a j => fillBody hole N a (i, j)) s

/-- The function `fill_map` of `util.cpp`: the two loops that zero the edges, then the
filling loops started from `nhole = 0`.  Returns the buffer `map` and `nhole`. -/
def fill_map (hole : Nat → Bool) (M N : Nat) (map : List Int) : List Int × Nat :=
  let s := (List.range' 1 M).foldl (fun a i => fillRow hole N a i)
    { map := zeroCols M N (zeroRows M N map), nhole := 0, drawn := 0 }
  (s.map, s.nhole)

/-- The values the filling loop stores in `n` consecutive cells, when `t` draws have
been made and `nhole = h`. -/
def labelsFrom (hole : Nat → Bool) : Nat → Nat → Nat → List Int
  | _, _, 0 => []
  | t, h, n + 1 =>
    if hole t then ((h + 1 : Nat) : Int) :: labelsFrom hole (t + 1) (h + 1) n
    else 0 :: labelsFrom hole (t + 1) h n

/-- A draw sequence that makes every second cell a hole, starting with a hole. -/
def everyOther (t : Nat) : Bool := t % 2 == 0

/-- A grid as the driver expects it: `(M+2)*(N+2)` cells, the halo 0, and every active
cell 0 (solid) or positive (fluid). -/
structure LabelledGrid (M N : Nat) (g : List Int) : Prop where
  /-- The buffer has `(M+2)*(N+2)` cells. -/
  size : g.length = (M + 2) * (N + 2)
  /-- Row 0, row `M+1`, column 0 and column `N+1` hold 0. -/
  halo : ∀ i, i ≤ M + 1 → ∀ j, j ≤ N + 1 →
    (i = 0 ∨ i = M + 1 ∨ j = 0 ∨ j = N + 1) → get N g i j = 0
  /-- Active cells hold 0 or a positive label. -/
  nonneg : ∀ c ∈ activeCells M N, 0 ≤ get N g c.1 c.2

/-- The cell `b` can be reached from the cell `a` by at most `k` moves between
4-adjacent fluid cells of `g`. -/
def reachIn (M N : Nat) (g : List Int) : Nat → Nat × Nat → Nat × Nat → Prop
  | 0, a, b => a = b
  | k + 1, a, b => reachIn M N g k a b ∨ ∃ c, fluidAdj M N g a c ∧ reachIn M N g k c b

/-- Two 2x2 fluid blocks labelled 1..4 and 5..8 on either side of a solid column. -/
def twoBlocks : List Int :=
  [0, 0, 0, 0, 0, 0, 0,
   0, 1, 2, 0, 5, 6, 0,
   0, 3, 4, 0, 7, 8, 0,
   0, 0, 0, 0, 0, 0, 0]

/-- The loop body of `percolate_cpu_step` run over the cells in the order `order`,
from `nchange = 0`, reading `state` and writing the separate buffer `next`. -/
def stepInOrder (N : Nat) (order : List (Nat × Nat)) (state next : List Int) :
    List Int × Nat :=
  order.foldl (cellBody N state) (next, 0)

/-- The same loop when `next` is the buffer `current` itself: each cell is read from,
and written to, the one buffer. -/
def stepInPlace (N : Nat) (order : List (Nat × Nat)) (state : List Int) : List Int × Nat :=
  order.foldl (fun acc c => cellBody N acc.1 acc c) (state, 0)

/-- The loop body of `percolate_cpu_step` with every array access bounds-checked:
`none` is the out-of-range branch.  As in the source, the four neighbours are read only
for a fluid cell. -/
def cellBodyChecked (N : Nat) (state : List Int) (acc : List Int × Nat) (c : Nat × Nat) :
    Option (List Int × Nat) :=
  match state[c.1 * (N + 2) + c.2]? with
  | none => none
  | some oldval =>
    let store (nv : Int) : Option (List Int × Nat) :=
      if c.1 * (N + 2) + c.2 < acc.1.length then
        some (acc.1.set (c.1 * (N + 2) + c.2) nv,
          if oldval ≠ 0 ∧ nv ≠ oldval then acc.2 + 1 else acc.2)
      else none
    if oldval ≠ 0 then
      match state[(c.1 - 1) * (N + 2) + c.2]?, state[(c.1 + 1) * (N + 2) + c.2]?,
        state[c.1 * (N + 2) + (c.2 - 1)]?, state[c.1 * (N + 2) + (c.2 + 1)]? with
      | some u, some d, some l, some r => store (max (max (max (max oldval u) d) l) r)
      | _, _, _, _ => none
    else store oldval

/-- The inner loop of row `i`, bounds-checked. -/
def rowLoopChecked (N : Nat) (state : List Int) (acc : List Int × Nat) (i : Nat) :
    Option (List Int × Nat) :=
  (List.range' 1 N).foldlM (fun a j => cellBodyChecked N state a (i, j)) acc

/-- The function `percolate_cpu_step`, bounds-checked. -/
def percolate_cpu_step_checked (M N : Nat) (state next : List Int) :
    Option (List Int × Nat) :=
  (List.range' 1 M).foldlM (fun a i => rowLoopChecked N state a i) (next, 0)

/-- The 1x1 grid whose single cell is labelled -1. -/
def negCell : List Int :=
  [0, 0, 0,
   0, -1, 0,
   0, 0, 0]

/-- The 1x3 strip labelled 1, 2, 3 with its halo. -/
def strip3 : List Int :=
  [0, 0, 0, 0, 0,
   0, 1, 2, 3, 0,
   0, 0, 0, 0, 0]

/-! ## Properties of the step and of the driver -/

theorem idx_div (N i j : Nat) (hj : j < N + 2) : (i * (N + 2) + j) / (N + 2) = i := by
  rw [Nat.add_comm, Nat.add_mul_div_right _ _ (by omega), Nat.div_eq_of_lt hj, Nat.zero_add]

theorem idx_mod (N i j : Nat) (hj : j < N + 2) : (i * (N + 2) + j) % (N + 2) = j := by
  rw [Nat.add_comm, Nat.add_mul_mod_self_right, Nat.mod_eq_of_lt hj]

theorem idx_inj (N : Nat) {i j i' j' : Nat} (hj : j < N + 2) (hj' : j' < N + 2)
    (h : i * (N + 2) + j = i' * (N + 2) + j') : i = i' ∧ j = j' := by
  have h1 := idx_div N i j hj
  have h2 := idx_mod N i j hj
  rw [h, idx_div N i' j' hj'] at h1
  rw [h, idx_mod N i' j' hj'] at h2
  exact ⟨h1.symm, h2.symm⟩

theorem idx_lt (M N : Nat) {i j : Nat} (hi : i ≤ M + 1) (hj : j ≤ N + 1) :
    i * (N + 2) + j < (M + 2) * (N + 2) := by
  have h1 : i * (N + 2) ≤ (M + 1) * (N + 2) := Nat.mul_le_mul_right _ hi
  have h2 : (M + 2) * (N + 2) = (M + 1) * (N + 2) + (N + 2) := by ring
  omega

theorem mem_activeCells (M N : Nat) (c : Nat × Nat) :
    c ∈ activeCells M N ↔ (1 ≤ c.1 ∧ c.1 ≤ M) ∧ (1 ≤ c.2 ∧ c.2 ≤ N) := by
  obtain ⟨i, j⟩ := c
  simp only [activeCells, List.mem_flatMap, List.mem_map, List.mem_range'_1, Prod.mk.injEq]
  constructor
  · rintro ⟨a, ha, b, hb, rfl, rfl⟩
    omega
  · rintro ⟨hi, hj⟩
    exact ⟨i, by omega, j, by omega, rfl, rfl⟩

theorem nodup_activeCells (M N : Nat) : (activeCells M N).Nodup :=
  List.Nodup.product (List.nodup_range' 1 M) (List.nodup_range' 1 N)

theorem step_eq_foldl (M N : Nat) (state next : List Int) :
    percolate_cpu_step M N state next = (activeCells M N).foldl (cellBody N state) (next, 0) := by
  unfold percolate_cpu_step activeCells rowLoop
  generalize (next, (0 : Nat)) = acc
  generalize List.range' 1 M = rows
  induction rows generalizing acc with
  | nil => rfl
  | cons i rows ih =>
    simp only [List.foldl_cons, List.flatMap_cons, List.foldl_append, List.foldl_map]
    exact ih _



theorem foldl_cellBody_length (N : Nat) (state : List Int) (cs : List (Nat × Nat))
    (acc : List Int × Nat) :
    (cs.foldl (cellBody N state) acc).1.length = acc.1.length := by
  induction cs generalizing acc with
  | nil => rfl
  | cons c cs ih => rw [List.foldl_cons, ih]; simp [cellBody]

theorem foldl_cellBody_count (N : Nat) (state : List Int) (cs : List (Nat × Nat))
    (acc : List Int × Nat) :
    (cs.foldl (cellBody N state) acc).2 = acc.2 + cs.countP (bumps N state) := by
  induction cs generalizing acc with
  | nil => rfl
  | cons c cs ih =>
    rw [List.foldl_cons, ih, List.countP_cons]
    by_cases hb : bumps N state c = true
    · have hb' := hb
      simp only [bumps, decide_eq_true_eq] at hb'
      simp only [cellBody, hb, if_pos hb', if_true]
      omega
    · have hb' := hb
      simp only [bumps, decide_eq_true_eq] at hb'
      simp only [cellBody, hb, if_neg hb']
      simp

theorem foldl_cellBody_other (N : Nat) (state : List Int) (cs : List (Nat × Nat))
    (acc : List Int × Nat) (p : Nat) (hp : ∀ c ∈ cs, c.1 * (N + 2) + c.2 ≠ p) :
    (cs.foldl (cellBody N state) acc).1[p]? = acc.1[p]? := by
  induction cs generalizing acc with
  | nil => rfl
  | cons c cs ih =>
    rw [List.foldl_cons, ih _ (fun c' hc' => hp c' (List.mem_cons_of_mem _ hc'))]
    simp only [cellBody]
    exact List.getElem?_set_ne (hp c (List.mem_cons_self _ _))

theorem foldl_cellBody_written (N : Nat) (state : List Int) (cs : List (Nat × Nat))
    (acc : List Int × Nat) (hcs : ∀ c ∈ cs, c.2 < N + 2) (c : Nat × Nat) (hc : c ∈ cs)
    (hlen : c.1 * (N + 2) + c.2 < acc.1.length) :
    (cs.foldl (cellBody N state) acc).1[c.1 * (N + 2) + c.2]? = some (newval N state c.1 c.2) := by
  induction cs generalizing acc with
  | nil => cases hc
  | cons c0 cs ih =>
    rw [List.foldl_cons]
    by_cases hmem : c ∈ cs
    · exact ih _ (fun c' hc' => hcs c' (List.mem_cons_of_mem _ hc')) hmem
        (by simpa [cellBody] using hlen)
    · have hc0 : c = c0 := by
        rcases List.mem_cons.1 hc with h | h
        · exact h
        · exact absurd h hmem
      subst hc0
      rw [foldl_cellBody_other]
      · simp only [cellBody]
        exact List.getElem?_set_self hlen
      · intro c' hc' heq
        have h1 := hcs c' (List.mem_cons_of_mem _ hc')
        have h2 := hcs c (List.mem_cons_self _ _)
        obtain ⟨e1, e2⟩ := idx_inj N h1 h2 heq
        exact hmem (by rwa [show c = c' from Prod.ext e1.symm e2.symm])

/-- The cell the step writes at an active position. -/
theorem step_get_active (M N : Nat) (state next : List Int)
    (hn : next.length = (M + 2) * (N + 2)) {i j : Nat}
    (hi : 1 ≤ i ∧ i ≤ M) (hj : 1 ≤ j ∧ j ≤ N) :
    get N (percolate_cpu_step M N state next).1 i j = newval N state i j := by
  have hmem : (i, j) ∈ activeCells M N := (mem_activeCells M N (i, j)).2 ⟨hi, hj⟩
  have hw := foldl_cellBody_written N state (activeCells M N) (next, 0)
    (fun c hc => by have := (mem_activeCells M N c).1 hc; omega) (i, j) hmem
    (by rw [hn]; exact idx_lt M N (by omega) (by omega))
  rw [get, step_eq_foldl, List.getD_eq_getElem?_getD, hw]
  rfl

/-- The step leaves every position that is not an active cell as it was in `next`. -/
theorem step_getElem?_inactive (M N : Nat) (state next : List Int) (p : Nat)
    (hp : ∀ i j, 1 ≤ i ∧ i ≤ M → 1 ≤ j ∧ j ≤ N → i * (N + 2) + j ≠ p) :
    (percolate_cpu_step M N state next).1[p]? = next[p]? := by
  rw [step_eq_foldl]
  exact foldl_cellBody_other N state _ _ p
    (fun c hc => hp c.1 c.2 ((mem_activeCells M N c).1 hc).1 ((mem_activeCells M N c).1 hc).2)

theorem step_length (M N : Nat) (state next : List Int) :
    (percolate_cpu_step M N state next).1.length = next.length := by
  rw [step_eq_foldl]
  exact foldl_cellBody_length N state _ _

theorem step_count (M N : Nat) (state next : List Int) :
    (percolate_cpu_step M N state next).2 = (activeCells M N).countP (bumps N state) := by
  rw [step_eq_foldl, foldl_cellBody_count]
  simp

theorem newval_of_zero (N : Nat) (state : List Int) (i j : Nat) (h : get N state i j = 0) :
    newval N state i j = 0 := by
  simp [newval, h]

theorem newval_of_ne_zero (N : Nat) (state : List Int) (i j : Nat) (h : get N state i j ≠ 0) :
    newval N state i j =
      max (max (max (max (get N state i j) (get N state (i - 1) j)) (get N state (i + 1) j))
        (get N state i (j - 1))) (get N state i (j + 1)) := by
  simp [newval, h]

theorem le_newval (N : Nat) (state : List Int) (i j : Nat) :
    get N state i j ≤ newval N state i j := by
  by_cases h : get N state i j = 0
  · rw [newval_of_zero N state i j h, h]
  · rw [newval_of_ne_zero N state i j h]
    simp only [le_max_iff, le_refl, true_or]



theorem bumps_iff (N : Nat) (state : List Int) (c : Nat × Nat) :
    bumps N state c = true ↔ newval N state c.1 c.2 ≠ get N state c.1 c.2 := by
  simp only [bumps, decide_eq_true_eq]
  constructor
  · exact fun h => h.2
  · intro h
    refine ⟨fun h0 => h ?_, h⟩
    rw [newval_of_zero N state _ _ h0, h0]

theorem toFinset_activeCells (M N : Nat) :
    (activeCells M N).toFinset = Finset.Icc 1 M ×ˢ Finset.Icc 1 N := by
  ext c
  simp only [List.mem_toFinset, mem_activeCells, Finset.mem_product, Finset.mem_Icc]

/-- C1: the update rule of `percolate_cpu_step`.  For `M, N ≥ 1`, buffers of
`(M+2)*(N+2)` cells and an active cell `(i, j)`, the value written to `next[i][j]`
is 0 when `current[i][j]` is 0 and otherwise the maximum of `current[i][j]` and its
four neighbours. -/
theorem C1_update_rule (M N : Nat) (_hM : 1 ≤ M) (_hN : 1 ≤ N) (state next : List Int)
    (_hs : state.length = (M + 2) * (N + 2)) (hn : next.length = (M + 2) * (N + 2))
    (i j : Nat) (hi : 1 ≤ i ∧ i ≤ M) (hj : 1 ≤ j ∧ j ≤ N) :
    get N (percolate_cpu_step M N state next).1 i j =
      if get N state i j = 0 then 0
      else max (get N state i j) (max (get N state (i - 1) j) (max (get N state (i + 1) j)
        (max (get N state i (j - 1)) (get N state i (j + 1))))) := by
  rw [step_get_active M N state next hn hi hj]
  split
  · next h => exact newval_of_zero N state i j h
  · next h => rw [newval_of_ne_zero N state i j h]; simp only [max_assoc]

/-- Witness of C1 on the 1x5 strip: cell (1, 2) holds 2 and its neighbours hold
0, 0, 1, 3, so 3 is written. -/
theorem C1_update_rule_witness :
    get 5 (percolate_cpu_step 1 5 strip5 strip5).1 1 2 = 3 :=
  (C1_update_rule 1 5 (by decide) (by decide) strip5 strip5 (by decide) (by decide) 1 2
    (by decide) (by decide)).trans (by decide)

/-- C2: the change count of `percolate_cpu_step`.  For `M, N ≥ 1` and buffers of
`(M+2)*(N+2)` cells, the integer returned is the number of active cells `(i, j)` whose
written value `next[i][j]` differs from `current[i][j]`. -/
theorem C2_change_count (M N : Nat) (_hM : 1 ≤ M) (_hN : 1 ≤ N) (state next : List Int)
    (_hs : state.length = (M + 2) * (N + 2)) (hn : next.length = (M + 2) * (N + 2)) :
    (percolate_cpu_step M N state next).2 =
      ((Finset.Icc 1 M ×ˢ Finset.Icc 1 N).filter (fun c =>
        get N (percolate_cpu_step M N state next).1 c.1 c.2 ≠ get N state c.1 c.2)).card := by
  have hcongr : (activeCells M N).countP (bumps N state) =
      (activeCells M N).countP (fun c =>
        decide (get N (percolate_cpu_step M N state next).1 c.1 c.2 ≠ get N state c.1 c.2)) := by
    apply List.countP_congr
    intro c hc
    have hm := (mem_activeCells M N c).1 hc
    rw [bumps_iff, decide_eq_true_eq, step_get_active M N state next hn hm.1 hm.2]
  rw [step_count, hcongr, List.countP_eq_length_filter,
    ← List.toFinset_card_of_nodup ((nodup_activeCells M N).filter _), List.toFinset_filter,
    toFinset_activeCells]
  congr 1
  ext c
  simp

/-- Witness of C2 on the 1x5 strip: the first step changes the four cells left of
the label 5. -/
theorem C2_change_count_witness :
    ((Finset.Icc 1 1 ×ˢ Finset.Icc 1 5).filter (fun c =>
        get 5 (percolate_cpu_step 1 5 strip5 strip5).1 c.1 c.2 ≠ get 5 strip5 c.1 c.2)).card
      = 4 :=
  (C2_change_count 1 5 (by decide) (by decide) strip5 strip5 (by decide) (by decide)).symm.trans
    (by decide)



theorem iterate_loopBody_step (M N : Nat) (n : Nat) (s : Loop) :
    ((loopBody M N)^[n] s).step = s.step + n := by
  induction n generalizing s with
  | zero => rfl
  | succ n ih =>
    rw [Function.iterate_succ_apply, ih]
    simp only [loopBody]
    omega

/-- The `while` loop with `fuel` unrollings runs the body some `k ≤ fuel` times: the
condition holds before each of these runs, and fails afterwards unless the fuel ran out. -/
theorem whileLoop_spec (M N maxstep : Nat) (fuel : Nat) (s : Loop) :
    ∃ k, k ≤ fuel ∧ whileLoop M N maxstep fuel s = (loopBody M N)^[k] s ∧
      (∀ n, n < k → loopCond maxstep ((loopBody M N)^[n] s) = true) ∧
      (k < fuel → loopCond maxstep ((loopBody M N)^[k] s) = false) := by
  induction fuel generalizing s with
  | zero => exact ⟨0, le_refl _, rfl, fun n hn => absurd hn (Nat.not_lt_zero n), fun h => absurd h (lt_irrefl _)⟩
  | succ fuel ih =>
    by_cases hc : loopCond maxstep s = true
    · obtain ⟨k, hk, he, hbefore, hafter⟩ := ih (loopBody M N s)
      refine ⟨k + 1, by omega, ?_, ?_, ?_⟩
      · rw [whileLoop, if_pos hc, he, Function.iterate_succ_apply]
      · intro n hn
        cases n with
        | zero => exact hc
        | succ n => rw [Function.iterate_succ_apply]; exact hbefore n (by omega)
      · intro h
        rw [Function.iterate_succ_apply]
        exact hafter (by omega)
    · refine ⟨0, by omega, ?_, fun n hn => absurd hn (Nat.not_lt_zero n), fun _ => ?_⟩
      · rw [whileLoop, if_neg hc]; rfl
      · simpa using hc

theorem loopCond_eq_true (maxstep : Nat) (s : Loop) :
    loopCond maxstep s = true ↔ s.nchange ≠ 0 ∧ s.step ≤ maxstep := by
  simp [loopCond]

theorem loopCond_eq_false (maxstep : Nat) (s : Loop) :
    loopCond maxstep s = false ↔ s.nchange = 0 ∨ maxstep < s.step := by
  rw [← Bool.not_eq_true, loopCond_eq_true]
  constructor
  · intro h
    by_cases h0 : s.nchange = 0
    · exact Or.inl h0
    · exact Or.inr (Nat.lt_of_not_le (fun hle => h ⟨h0, hle⟩))
  · rintro (h | h) ⟨h1, h2⟩
    · exact h1 h
    · omega

theorem afterSteps_step (M N : Nat) (state : List Int) (n : Nat) :
    (afterSteps M N state n).step = n + 1 := by
  rw [afterSteps, iterate_loopBody_step]
  simp only [initLoop]
  omega

/-- The run of `percolate_cpu`: the loop exits after `k` executions of its body, where
the condition held before each of them and fails after the last. -/
theorem exitLoop_spec (M N : Nat) (state : List Int) :
    ∃ k, k ≤ 4 * max M N ∧ exitLoop M N state = afterSteps M N state k ∧
      (∀ n, n < k → loopCond (4 * max M N) (afterSteps M N state n) = true) ∧
      loopCond (4 * max M N) (afterSteps M N state k) = false := by
  obtain ⟨k, hk, he, hbefore, hafter⟩ :=
    whileLoop_spec M N (4 * max M N) (4 * max M N) (initLoop M N state)
  refine ⟨k, hk, he, hbefore, ?_⟩
  rcases Nat.lt_or_ge k (4 * max M N) with h | h
  · exact hafter h
  · rw [loopCond_eq_false]
    right
    have := iterate_loopBody_step M N k (initLoop M N state)
    simp only [initLoop] at this
    simp only [afterSteps, initLoop]
    omega

theorem exitLoop_eq_afterSteps (M N : Nat) (state : List Int) :
    exitLoop M N state = afterSteps M N state (stepsExecuted M N state) := by
  obtain ⟨k, _, he, _, _⟩ := exitLoop_spec M N state
  have hk : stepsExecuted M N state = k := by
    rw [stepsExecuted, he, afterSteps_step]
    omega
  rw [hk, he]



theorem newval_eq_specCell (N : Nat) (state : List Int) (i j : Nat) :
    newval N state i j = specCell N state i j := by
  unfold specCell
  split
  · next h => exact newval_of_zero N state i j h
  · next h => rw [newval_of_ne_zero N state i j h]; simp only [max_assoc]

theorem activeIdx_idx (M N : Nat) {i j : Nat} (hj : j < N + 2) :
    activeIdx M N (i * (N + 2) + j) ↔ (1 ≤ i ∧ i ≤ M) ∧ (1 ≤ j ∧ j ≤ N) := by
  rw [activeIdx, idx_div N i j hj, idx_mod N i j hj]

theorem not_activeIdx_ne (M N p : Nat) (hp : ¬ activeIdx M N p) (i j : Nat)
    (hi : 1 ≤ i ∧ i ≤ M) (hj : 1 ≤ j ∧ j ≤ N) : i * (N + 2) + j ≠ p := by
  rintro rfl
  exact hp ((activeIdx_idx M N (by omega)).2 ⟨hi, hj⟩)

theorem length_specStep (M N : Nat) (g : List Int) : (specStep M N g).length = g.length := by
  simp [specStep]

theorem getElem?_specStep (M N : Nat) (g : List Int) (p : Nat) (hp : p < g.length) :
    (specStep M N g)[p]? =
      some (if activeIdx M N p then specCell N g (p / (N + 2)) (p % (N + 2)) else g.getD p 0) := by
  simp [specStep, List.getElem?_map, List.getElem?_range hp]

theorem specStep_inactive (M N : Nat) (g : List Int) (p : Nat) (hp : ¬ activeIdx M N p) :
    (specStep M N g)[p]? = g[p]? := by
  rcases Nat.lt_or_ge p g.length with h | h
  · rw [getElem?_specStep M N g p h, if_neg hp, List.getD_eq_getElem?_getD,
      List.getElem?_eq_getElem h]
    rfl
  · rw [List.getElem?_eq_none h, List.getElem?_eq_none (by rw [length_specStep]; exact h)]

/-- The step of the source computes the specification's step, provided `next` has the
right size and carries the same halo as `state`. -/
theorem step_eq_specStep (M N : Nat) (state next : List Int)
    (hs : state.length = (M + 2) * (N + 2)) (hn : next.length = (M + 2) * (N + 2))
    (hhalo : ∀ p, ¬ activeIdx M N p → next[p]? = state[p]?) :
    (percolate_cpu_step M N state next).1 = specStep M N state := by
  apply List.ext_getElem?
  intro p
  rcases Nat.lt_or_ge p ((M + 2) * (N + 2)) with hlt | hge
  · rw [getElem?_specStep M N state p (hs ▸ hlt)]
    by_cases hact : activeIdx M N p
    · rw [if_pos hact]
      have hmem : (p / (N + 2), p % (N + 2)) ∈ activeCells M N :=
        (mem_activeCells M N _).2 hact
      have hw := foldl_cellBody_written N state (activeCells M N) (next, 0)
        (fun c hc => by have := (mem_activeCells M N c).1 hc; omega) _ hmem
        (by rw [Nat.div_add_mod' p (N + 2), hn]; exact hlt)
      rw [Nat.div_add_mod' p (N + 2)] at hw
      rw [step_eq_foldl, hw, newval_eq_specCell]
    · rw [if_neg hact, step_getElem?_inactive M N state next p (not_activeIdx_ne M N p hact),
        hhalo p hact, List.getD_eq_getElem?_getD, List.getElem?_eq_getElem (hs ▸ hlt)]
      rfl
  · rw [List.getElem?_eq_none (by rw [step_length, hn]; exact hge),
      List.getElem?_eq_none (by rw [length_specStep, hs]; exact hge)]

theorem loopBody_current (M N : Nat) (s : Loop) :
    (loopBody M N s).current = (percolate_cpu_step M N s.current s.next).1 := by
  cases h : s.curIsState <;> simp [loopBody, Loop.current, Loop.next, h]

theorem loopBody_next (M N : Nat) (s : Loop) : (loopBody M N s).next = s.current := by
  cases h : s.curIsState <;> simp [loopBody, Loop.current, Loop.next, h]

theorem loopBody_nchange (M N : Nat) (s : Loop) :
    (loopBody M N s).nchange = (percolate_cpu_step M N s.current s.next).2 := rfl

theorem afterSteps_succ (M N : Nat) (state : List Int) (n : Nat) :
    afterSteps M N state (n + 1) = loopBody M N (afterSteps M N state n) :=
  Function.iterate_succ_apply' _ _ _

theorem memcpy_full (dst src : List Int) (n : Nat) (hd : dst.length = n) (hs : src.length = n) :
    memcpy dst src n = src := by
  rw [memcpy, List.take_of_length_le (le_of_eq hs), List.drop_eq_nil_of_le (le_of_eq hd),
    List.append_nil]

theorem initLoop_current (M N : Nat) (state : List Int) :
    (initLoop M N state).current = state := rfl

theorem initLoop_next (M N : Nat) (state : List Int) (hs : state.length = (M + 2) * (N + 2)) :
    (initLoop M N state).next = state := by
  simp only [initLoop, Loop.next, if_true]
  exact memcpy_full _ _ _ (List.length_replicate _ _) hs

theorem iterate_specStep_length (M N : Nat) (g : List Int) (n : Nat) :
    ((specStep M N)^[n] g).length = g.length := by
  induction n with
  | zero => rfl
  | succ n ih => rw [Function.iterate_succ_apply', length_specStep, ih]

theorem iterate_specStep_inactive (M N : Nat) (g : List Int) (n p : Nat)
    (hp : ¬ activeIdx M N p) : ((specStep M N)^[n] g)[p]? = g[p]? := by
  induction n with
  | zero => rfl
  | succ n ih => rw [Function.iterate_succ_apply', specStep_inactive M N _ p hp, ih]

/-- The invariant of the double-buffered loop: `current` is the `n`-fold pure iterate,
and `next` has the right size and the halo of the initial grid. -/
theorem afterSteps_inv (M N : Nat) (state : List Int) (hs : state.length = (M + 2) * (N + 2))
    (n : Nat) :
    (afterSteps M N state n).current = (specStep M N)^[n] state ∧
    (afterSteps M N state n).next.length = (M + 2) * (N + 2) ∧
    (∀ p, ¬ activeIdx M N p → (afterSteps M N state n).next[p]? = state[p]?) := by
  induction n with
  | zero =>
    refine ⟨rfl, ?_, ?_⟩
    · show (initLoop M N state).next.length = _
      rw [initLoop_next M N state hs, hs]
    · intro p _
      show (initLoop M N state).next[p]? = _
      rw [initLoop_next M N state hs]
  | succ n ih =>
    obtain ⟨hcur, hlen, hhalo⟩ := ih
    have hcl : (afterSteps M N state n).current.length = (M + 2) * (N + 2) := by
      rw [hcur, iterate_specStep_length, hs]
    rw [afterSteps_succ, loopBody_current, loopBody_next]
    refine ⟨?_, hcl, ?_⟩
    · rw [step_eq_specStep M N _ _ hcl hlen, hcur, Function.iterate_succ_apply']
      intro p hp
      rw [hhalo p hp, hcur, iterate_specStep_inactive M N state n p hp]
    · intro p hp
      rw [hcur, iterate_specStep_inactive M N state n p hp]

/-- On return the caller's buffer holds what `current` pointed to on loop exit. -/
theorem percolate_cpu_eq_current (M N : Nat) (state : List Int)
    (hs : state.length = (M + 2) * (N + 2)) :
    percolate_cpu M N state = (exitLoop M N state).current := by
  have hinv := afterSteps_inv M N state hs (stepsExecuted M N state)
  rw [← exitLoop_eq_afterSteps] at hinv
  obtain ⟨hcur, hlen, _⟩ := hinv
  have hcl : (exitLoop M N state).current.length = (M + 2) * (N + 2) := by
    rw [hcur, iterate_specStep_length, hs]
  unfold percolate_cpu
  cases h : (exitLoop M N state).curIsState
  · simp only [Loop.current, Loop.next, h] at hcl hlen ⊢
    simp only [Bool.false_eq_true, if_false]
    exact memcpy_full _ _ _ hlen hcl
  · simp [Loop.current, h]

/-- C4: double buffering and copy-back.  For `M, N ≥ 1` and an initial grid of
`(M+2)*(N+2)` cells, the caller's buffer on return from `percolate_cpu` equals the
`k`-fold iterate of the pure step `specStep` on the initial grid, `k` the number of
steps the driver executed (odd or even). -/
theorem C4_double_buffering (M N : Nat) (_hM : 1 ≤ M) (_hN : 1 ≤ N) (state : List Int)
    (hs : state.length = (M + 2) * (N + 2)) :
    percolate_cpu M N state = (specStep M N)^[stepsExecuted M N state] state := by
  rw [percolate_cpu_eq_current M N state hs, exitLoop_eq_afterSteps]
  exact (afterSteps_inv M N state hs _).1

/-- Witness of C4 on the 1x5 strip, where `k = 5` is odd and the result is copied
back from the work array. -/
theorem C4_double_buffering_witness :
    stepsExecuted 1 5 strip5 = 5 ∧ (exitLoop 1 5 strip5).curIsState = false ∧
      percolate_cpu 1 5 strip5 = (specStep 1 5)^[stepsExecuted 1 5 strip5] strip5 :=
  ⟨by decide, by decide, C4_double_buffering 1 5 (by decide) (by decide) strip5 (by decide)⟩




theorem snake7_valid : ValidGrid 7 7 snake7 :=
  ⟨by decide, by decide, by decide, by decide⟩

theorem walkOk_sound (M N : Nat) (g : List Int) (l : List (Nat × Nat)) (a b : Nat × Nat)
    (h : walkOk M N g a l b = true) : Relation.ReflTransGen (fluidAdj M N g) a b := by
  induction l generalizing a with
  | nil =>
    simp only [walkOk, decide_eq_true_eq] at h
    subst h
    exact Relation.ReflTransGen.refl
  | cons c l ih =>
    simp only [walkOk, Bool.and_eq_true, decide_eq_true_eq] at h
    exact Relation.ReflTransGen.head h.1 (ih c h.2)

theorem snake7_connected : sameCluster 7 7 snake7 (1, 7) (7, 7) :=
  ⟨by decide, walkOk_sound 7 7 snake7 snake7Path (1, 7) (7, 7) (by decide)⟩

theorem snake7_final : get 7 (percolate_cpu 7 7 snake7) 1 7 = 29 ∧ get 7 (percolate_cpu 7 7 snake7) 7 7 = 31 := by
  decide

theorem get_specStep_active (M N : Nat) (g : List Int) (hs : g.length = (M + 2) * (N + 2))
    {i j : Nat} (hi : 1 ≤ i ∧ i ≤ M) (hj : 1 ≤ j ∧ j ≤ N) :
    get N (specStep M N g) i j = specCell N g i j := by
  have hlt : i * (N + 2) + j < g.length := hs ▸ idx_lt M N (by omega) (by omega)
  have hj' : j < N + 2 := by omega
  rw [get, List.getD_eq_getElem?_getD, getElem?_specStep M N g _ hlt,
    if_pos ((activeIdx_idx M N hj').2 ⟨hi, hj⟩), idx_div N i j hj', idx_mod N i j hj']
  rfl

theorem get_specStep_inactive (M N : Nat) (g : List Int) {i j : Nat} (hj : j ≤ N + 1)
    (h : ¬ ((1 ≤ i ∧ i ≤ M) ∧ (1 ≤ j ∧ j ≤ N))) :
    get N (specStep M N g) i j = get N g i j := by
  have hna : ¬ activeIdx M N (i * (N + 2) + j) := fun ha =>
    h ((activeIdx_idx M N (by omega)).1 ha)
  rw [get, get, List.getD_eq_getElem?_getD, List.getD_eq_getElem?_getD,
    specStep_inactive M N g _ hna]

theorem get_le_specStep (M N : Nat) (g : List Int) (hs : g.length = (M + 2) * (N + 2))
    {i j : Nat} (hi : 1 ≤ i ∧ i ≤ M) (hj : 1 ≤ j ∧ j ≤ N) :
    get N g i j ≤ get N (specStep M N g) i j := by
  rw [get_specStep_active M N g hs hi hj, ← newval_eq_specCell]
  exact le_newval N g i j

theorem get_le_iterate (M N : Nat) (g : List Int) (hs : g.length = (M + 2) * (N + 2))
    {i j : Nat} (hi : 1 ≤ i ∧ i ≤ M) (hj : 1 ≤ j ∧ j ≤ N) (n : Nat) :
    get N g i j ≤ get N ((specStep M N)^[n] g) i j := by
  induction n with
  | zero => exact le_refl _
  | succ n ih =>
    rw [Function.iterate_succ_apply']
    exact le_trans ih (get_le_specStep M N _ (by rw [iterate_specStep_length, hs]) hi hj)

theorem changeCount_succ (M N : Nat) (g : List Int) (hs : g.length = (M + 2) * (N + 2))
    (n : Nat) :
    changeCount M N g (n + 1) = (activeCells M N).countP (bumps N ((specStep M N)^[n] g)) := by
  rw [changeCount, afterSteps_succ, loopBody_nchange, step_count, (afterSteps_inv M N g hs n).1]

theorem specStep_eq_self (M N : Nat) (g : List Int)
    (h : ∀ c ∈ activeCells M N, newval N g c.1 c.2 = get N g c.1 c.2) : specStep M N g = g := by
  apply List.ext_getElem?
  intro p
  by_cases hact : activeIdx M N p
  · rcases Nat.lt_or_ge p g.length with hlt | hge
    · have hc := h (p / (N + 2), p % (N + 2)) ((mem_activeCells M N _).2 hact)
      rw [getElem?_specStep M N g p hlt, if_pos hact, ← newval_eq_specCell, hc, get,
        Nat.div_add_mod' p (N + 2), List.getD_eq_getElem?_getD, List.getElem?_eq_getElem hlt]
      rfl
    · rw [List.getElem?_eq_none hge, List.getElem?_eq_none (by rw [length_specStep]; exact hge)]
  · exact specStep_inactive M N g p hact

theorem fixed_of_changeCount_zero (M N : Nat) (g : List Int)
    (hs : g.length = (M + 2) * (N + 2)) (n : Nat) (h : changeCount M N g (n + 1) = 0) :
    specStep M N ((specStep M N)^[n] g) = (specStep M N)^[n] g := by
  rw [changeCount_succ M N g hs n, List.countP_eq_zero] at h
  apply specStep_eq_self
  intro c hc
  by_contra hne
  exact h c hc ((bumps_iff N _ c).2 hne)

theorem stepsExecuted_pos (M N : Nat) (hM : 1 ≤ M) (g : List Int) : 1 ≤ stepsExecuted M N g := by
  obtain ⟨k, _, he, _, hafter⟩ := exitLoop_spec M N g
  have hsteps : stepsExecuted M N g = k := by
    rw [stepsExecuted, he, afterSteps_step]
    omega
  have hmax : 1 ≤ max M N := le_trans hM (le_max_left M N)
  rw [hsteps]
  rcases Nat.eq_zero_or_pos k with h0 | h0
  · subst h0
    rw [loopCond_eq_false] at hafter
    simp only [afterSteps, Function.iterate_zero, id_eq, initLoop] at hafter
    omega
  · exact h0

theorem percolate_cpu_eq_iterate (M N : Nat) (g : List Int)
    (hs : g.length = (M + 2) * (N + 2)) :
    percolate_cpu M N g = (specStep M N)^[stepsExecuted M N g] g := by
  rw [percolate_cpu_eq_current M N g hs, exitLoop_eq_afterSteps]
  exact (afterSteps_inv M N g hs _).1

theorem length_percolate_cpu (M N : Nat) (g : List Int)
    (hs : g.length = (M + 2) * (N + 2)) : (percolate_cpu M N g).length = (M + 2) * (N + 2) := by
  rw [percolate_cpu_eq_iterate M N g hs, iterate_specStep_length, hs]

/-- When the loop exits with `nchange = 0`, the grid returned is a fixed point of the step. -/
theorem final_fixed (M N : Nat) (hM : 1 ≤ M) (g : List Int)
    (hs : g.length = (M + 2) * (N + 2)) (hconv : (exitLoop M N g).nchange = 0) :
    specStep M N (percolate_cpu M N g) = percolate_cpu M N g := by
  have hpos := stepsExecuted_pos M N hM g
  rw [exitLoop_eq_afterSteps] at hconv
  rw [percolate_cpu_eq_iterate M N g hs]
  obtain ⟨k, hk⟩ : ∃ k, stepsExecuted M N g = k + 1 := ⟨stepsExecuted M N g - 1, by omega⟩
  rw [hk] at hconv ⊢
  have hfix := fixed_of_changeCount_zero M N g hs k hconv
  rw [Function.iterate_succ_apply', hfix, hfix]

/-- At a fixed point a fluid cell is at least as large as each of its four neighbours. -/
theorem fixed_neighbours (M N : Nat) (g : List Int) (hs : g.length = (M + 2) * (N + 2))
    (hfix : specStep M N g = g) {i j : Nat} (hi : 1 ≤ i ∧ i ≤ M) (hj : 1 ≤ j ∧ j ≤ N)
    (hne : get N g i j ≠ 0) :
    get N g (i - 1) j ≤ get N g i j ∧ get N g (i + 1) j ≤ get N g i j ∧
    get N g i (j - 1) ≤ get N g i j ∧ get N g i (j + 1) ≤ get N g i j := by
  have h := get_specStep_active M N g hs hi hj
  rw [hfix, specCell, if_neg hne] at h
  refine ⟨?_, ?_, ?_, ?_⟩ <;> (rw [h]; simp only [le_max_iff, le_refl, true_or, or_true])

theorem fluid_iterate (M N : Nat) (g : List Int) (hv : ValidGrid M N g) (c : Nat × Nat)
    (hc : fluid M N g c) (n : Nat) : get N ((specStep M N)^[n] g) c.1 c.2 ≠ 0 := by
  have hm := (mem_activeCells M N c).1 hc.1
  have h1 := get_le_iterate M N g hv.size hm.1 hm.2 n
  have h2 := hv.nonneg c hc.1
  have h3 := hc.2
  omega

/-- At a fixed point reached from a valid grid, two adjacent fluid cells hold the same
label. -/
theorem fixed_adjacent_eq (M N : Nat) (g : List Int) (hv : ValidGrid M N g) (n : Nat)
    (hfix : specStep M N ((specStep M N)^[n] g) = (specStep M N)^[n] g)
    (a b : Nat × Nat) (hab : fluidAdj M N g a b) :
    get N ((specStep M N)^[n] g) a.1 a.2 = get N ((specStep M N)^[n] g) b.1 b.2 := by
  obtain ⟨ha, hb, hadj⟩ := hab
  have hlen : ((specStep M N)^[n] g).length = (M + 2) * (N + 2) := by
    rw [iterate_specStep_length, hv.size]
  have hma := (mem_activeCells M N a).1 ha.1
  have hmb := (mem_activeCells M N b).1 hb.1
  have hna := fixed_neighbours M N _ hlen hfix hma.1 hma.2 (fluid_iterate M N g hv a ha n)
  have hnb := fixed_neighbours M N _ hlen hfix hmb.1 hmb.2 (fluid_iterate M N g hv b hb n)
  obtain ⟨a1, a2⟩ := a
  obtain ⟨b1, b2⟩ := b
  simp only [adjacent] at hadj hna hnb hma hmb ⊢
  rcases hadj with ⟨h1, h2 | h2⟩ | ⟨h1, h2 | h2⟩
  · subst h1; subst h2
    rw [Nat.add_sub_cancel] at hnb
    exact le_antisymm hnb.2.2.1 hna.2.2.2
  · subst h1; subst h2
    rw [Nat.add_sub_cancel] at hna
    exact le_antisymm hnb.2.2.2 hna.2.2.1
  · subst h1; subst h2
    rw [Nat.add_sub_cancel] at hnb
    exact le_antisymm hnb.1 hna.2.1
  · subst h1; subst h2
    rw [Nat.add_sub_cancel] at hna
    exact le_antisymm hnb.2.1 hna.1

/-- Counterexample to C5 as stated: `snake7` is a valid 7x7 grid whose cells (1, 7) and
(7, 7) lie in the same fluid cluster 30 moves apart; `percolate_cpu` stops at its cap
of 28 steps and leaves the two cells with the different labels 29 and 31. -/
theorem C5_counterexample :
    ValidGrid 7 7 snake7 ∧ sameCluster 7 7 snake7 (1, 7) (7, 7) ∧
      get 7 (percolate_cpu 7 7 snake7) 1 7 = 29 ∧
      get 7 (percolate_cpu 7 7 snake7) 7 7 = 31 ∧
      get 7 (percolate_cpu 7 7 snake7) 1 7 ≠ get 7 (percolate_cpu 7 7 snake7) 7 7 :=
  ⟨snake7_valid, snake7_connected, snake7_final.1, snake7_final.2,
    by rw [snake7_final.1, snake7_final.2]; decide⟩

/-- C5, amended: for `M, N ≥ 1` and a valid initial grid, if `percolate_cpu` leaves its
loop with `nchange = 0` (a step reported no change, i.e. the run converged before or at
the cap), then any two fluid cells of the same 4-connected fluid cluster carry the same
label in the grid left in `state`. -/
theorem C5_cluster_label_at_convergence (M N : Nat) (hM : 1 ≤ M) (_hN : 1 ≤ N)
    (g : List Int) (hv : ValidGrid M N g) (hconv : (exitLoop M N g).nchange = 0)
    (a b : Nat × Nat) (hab : sameCluster M N g a b) :
    get N (percolate_cpu M N g) a.1 a.2 = get N (percolate_cpu M N g) b.1 b.2 := by
  have hfix := final_fixed M N hM g hv.size hconv
  rw [percolate_cpu_eq_iterate M N g hv.size] at hfix ⊢
  obtain ⟨_, hpath⟩ := hab
  induction hpath with
  | refl => rfl
  | tail _ hstep ih => exact ih.trans (fixed_adjacent_eq M N g hv _ hfix _ _ hstep)

/-- Witness of the amended C5 on the 1x5 strip: the run converges and the two end
cells of the strip agree. -/
theorem C5_cluster_label_at_convergence_witness :
    get 5 (percolate_cpu 1 5 strip5) 1 1 = get 5 (percolate_cpu 1 5 strip5) 1 5 :=
  C5_cluster_label_at_convergence 1 5 (by decide) (by decide) strip5
    ⟨by decide, by decide, by decide, by decide⟩ (by decide) (1, 1) (1, 5)
    ⟨by decide, walkOk_sound 1 5 strip5 [(1, 2), (1, 3), (1, 4), (1, 5)] (1, 1) (1, 5)
      (by decide)⟩

theorem get_step_inactive (M N : Nat) (state next : List Int) {i j : Nat} (hj : j ≤ N + 1)
    (h : ¬ ((1 ≤ i ∧ i ≤ M) ∧ (1 ≤ j ∧ j ≤ N))) :
    get N (percolate_cpu_step M N state next).1 i j = get N next i j := by
  have hna : ¬ activeIdx M N (i * (N + 2) + j) := fun ha =>
    h ((activeIdx_idx M N (by omega)).1 ha)
  rw [get, get, List.getD_eq_getElem?_getD, List.getD_eq_getElem?_getD,
    step_getElem?_inactive M N state next _ (not_activeIdx_ne M N _ hna)]

theorem afterSteps_lengths (M N : Nat) (g : List Int) (hs : g.length = (M + 2) * (N + 2))
    (n : Nat) :
    (afterSteps M N g n).current.length = (M + 2) * (N + 2) ∧
    (afterSteps M N g n).next.length = (M + 2) * (N + 2) := by
  obtain ⟨hcur, hlen, _⟩ := afterSteps_inv M N g hs n
  exact ⟨by rw [hcur, iterate_specStep_length, hs], hlen⟩

theorem afterSteps_current_succ (M N : Nat) (g : List Int) (n : Nat) :
    (afterSteps M N g (n + 1)).current =
      (percolate_cpu_step M N (afterSteps M N g n).current (afterSteps M N g n).next).1 := by
  rw [afterSteps_succ, loopBody_current]

/-- C6: monotonicity.  For `M, N ≥ 1` the value `percolate_cpu_step` writes to an active
cell is at least the value the cell had in `current`; hence along the run of
`percolate_cpu` the label of an active cell in `current` never decreases from one step
to the next. -/
theorem C6_monotonicity (M N : Nat) (_hM : 1 ≤ M) (_hN : 1 ≤ N) :
    (∀ state next : List Int, state.length = (M + 2) * (N + 2) →
      next.length = (M + 2) * (N + 2) → ∀ i j, 1 ≤ i ∧ i ≤ M → 1 ≤ j ∧ j ≤ N →
      get N state i j ≤ get N (percolate_cpu_step M N state next).1 i j) ∧
    (∀ g : List Int, g.length = (M + 2) * (N + 2) → ∀ n i j, 1 ≤ i ∧ i ≤ M → 1 ≤ j ∧ j ≤ N →
      get N (afterSteps M N g n).current i j ≤ get N (afterSteps M N g (n + 1)).current i j) := by
  have hstep : ∀ state next : List Int, next.length = (M + 2) * (N + 2) →
      ∀ i j, 1 ≤ i ∧ i ≤ M → 1 ≤ j ∧ j ≤ N →
      get N state i j ≤ get N (percolate_cpu_step M N state next).1 i j := by
    intro state next hn i j hi hj
    rw [step_get_active M N state next hn hi hj]
    exact le_newval N state i j
  refine ⟨fun state next _ hn => hstep state next hn, ?_⟩
  intro g hs n i j hi hj
  rw [afterSteps_current_succ]
  exact hstep _ _ (afterSteps_lengths M N g hs n).2 i j hi hj

/-- Witness of C6 on the 1x5 strip: cell (1, 1) goes from 1 to 2 in the first step. -/
theorem C6_monotonicity_witness :
    get 5 strip5 1 1 ≤ get 5 (percolate_cpu_step 1 5 strip5 strip5).1 1 1 ∧
      get 5 (afterSteps 1 5 strip5 0).current 1 1 ≤ get 5 (afterSteps 1 5 strip5 1).current 1 1 :=
  ⟨(C6_monotonicity 1 5 (by decide) (by decide)).1 strip5 strip5 (by decide) (by decide) 1 1
      (by decide) (by decide),
    (C6_monotonicity 1 5 (by decide) (by decide)).2 strip5 (by decide) 0 1 1
      (by decide) (by decide)⟩

/-- C7: solid invariance.  For `M, N ≥ 1` and an initial grid of `(M+2)*(N+2)` cells, an
active cell that is 0 initially is 0 in `current` after any number `n` of steps of the
loop of `percolate_cpu` (in particular after each step the driver executes), and is 0
in the grid left in `state`. -/
theorem C7_solid_invariance (M N : Nat) (_hM : 1 ≤ M) (_hN : 1 ≤ N) (g : List Int)
    (hs : g.length = (M + 2) * (N + 2)) (i j : Nat) (hi : 1 ≤ i ∧ i ≤ M)
    (hj : 1 ≤ j ∧ j ≤ N) (h0 : get N g i j = 0) :
    (∀ n, get N (afterSteps M N g n).current i j = 0) ∧
      get N (percolate_cpu M N g) i j = 0 := by
  have hall : ∀ n, get N (afterSteps M N g n).current i j = 0 := by
    intro n
    induction n with
    | zero => exact h0
    | succ n ih =>
      rw [afterSteps_current_succ,
        step_get_active M N _ _ (afterSteps_lengths M N g hs n).2 hi hj]
      exact newval_of_zero N _ i j ih
  refine ⟨hall, ?_⟩
  rw [percolate_cpu_eq_current M N g hs, exitLoop_eq_afterSteps]
  exact hall _

/-- Witness of C7 on `grid2`: the solid cell (1, 2), whose neighbours hold 1 and 3,
stays 0. -/
theorem C7_solid_invariance_witness :
    (∀ n, get 2 (afterSteps 2 2 grid2 n).current 1 2 = 0) ∧
      get 2 (percolate_cpu 2 2 grid2) 1 2 = 0 :=
  C7_solid_invariance 2 2 (by decide) (by decide) grid2 (by decide) 1 2 (by decide) (by decide)
    (by decide)

/-- C8: halo invariance.  For `M, N ≥ 1` and an initial grid of `(M+2)*(N+2)` cells
whose halo cells are all 0, every halo cell of both `current` and `next` is 0 after any
number `n` of steps of the loop of `percolate_cpu`, and is 0 in the grid left in
`state`. -/
theorem C8_halo_invariance (M N : Nat) (_hM : 1 ≤ M) (_hN : 1 ≤ N) (g : List Int)
    (hs : g.length = (M + 2) * (N + 2))
    (hhalo : ∀ i, i ≤ M + 1 → ∀ j, j ≤ N + 1 →
      (i = 0 ∨ i = M + 1 ∨ j = 0 ∨ j = N + 1) → get N g i j = 0)
    (i j : Nat) (hi : i ≤ M + 1) (hj : j ≤ N + 1)
    (hij : i = 0 ∨ i = M + 1 ∨ j = 0 ∨ j = N + 1) :
    (∀ n, get N (afterSteps M N g n).current i j = 0 ∧
      get N (afterSteps M N g n).next i j = 0) ∧
    get N (percolate_cpu M N g) i j = 0 := by
  have hna : ¬ ((1 ≤ i ∧ i ≤ M) ∧ (1 ≤ j ∧ j ≤ N)) := by omega
  have hg := hhalo i hi j hj hij
  have hall : ∀ n, get N (afterSteps M N g n).current i j = 0 ∧
      get N (afterSteps M N g n).next i j = 0 := by
    intro n
    induction n with
    | zero =>
      refine ⟨hg, ?_⟩
      show get N (initLoop M N g).next i j = 0
      rw [initLoop_next M N g hs]
      exact hg
    | succ n ih =>
      rw [afterSteps_succ, loopBody_current, loopBody_next,
        get_step_inactive M N _ _ hj hna]
      exact ⟨ih.2, ih.1⟩
  refine ⟨hall, ?_⟩
  rw [percolate_cpu_eq_current M N g hs, exitLoop_eq_afterSteps]
  exact (hall _).1

/-- Witness of C8 on the 1x5 strip, at the halo cell (1, 6) right of the label 5. -/
theorem C8_halo_invariance_witness :
    (∀ n, get 5 (afterSteps 1 5 strip5 n).current 1 6 = 0 ∧
      get 5 (afterSteps 1 5 strip5 n).next 1 6 = 0) ∧
    get 5 (percolate_cpu 1 5 strip5) 1 6 = 0 :=
  C8_halo_invariance 1 5 (by decide) (by decide) strip5 (by decide) (by decide) 1 6
    (by decide) (by decide) (by decide)


theorem newval_congr (N : Nat) (g h : List Int) (i j : Nat)
    (h0 : get N h i j = get N g i j) (h1 : get N h (i - 1) j = get N g (i - 1) j)
    (h2 : get N h (i + 1) j = get N g (i + 1) j) (h3 : get N h i (j - 1) = get N g i (j - 1))
    (h4 : get N h i (j + 1) = get N g i (j + 1)) : newval N h i j = newval N g i j := by
  simp only [newval, h0, h1, h2, h3, h4]

theorem step_count_eq_zero (M N : Nat) (state next : List Int) :
    (percolate_cpu_step M N state next).2 = 0 ↔
      ∀ c ∈ activeCells M N, newval N state c.1 c.2 = get N state c.1 c.2 := by
  rw [step_count, List.countP_eq_zero]
  constructor
  · intro h c hc
    by_contra hne
    exact h c hc ((bumps_iff N state c).2 hne)
  · intro h c hc hb
    exact (bumps_iff N state c).1 hb (h c hc)

/-- Counterexample to C9 as stated: on the 1x1 grid `cell1` the step into the buffer
`dirtyHalo` reports change count 0, yet the grid it produced (the cell 1 below a halo
cell 7) makes the next step report change count 1. -/
theorem C9_counterexample :
    (percolate_cpu_step 1 1 cell1 dirtyHalo).2 = 0 ∧
      (percolate_cpu_step 1 1 cell1 dirtyHalo).1 = [0, 7, 0, 0, 1, 0, 0, 0, 0] ∧
      (percolate_cpu_step 1 1 (percolate_cpu_step 1 1 cell1 dirtyHalo).1 cell1).2 = 1 := by
  decide

/-- C9, amended: idempotence at a fixed point when `next` carries the halo of `g`.  For
`M, N ≥ 1`, a grid `g` and a buffer `next` of `(M+2)*(N+2)` cells whose halo cells equal
those of `g` (as in `percolate_cpu`, or when both halos are 0): if the step from `g`
into `next` returns change count 0, the grid produced agrees with `g` on every active
cell, and the step applied to the produced grid returns change count 0 again. -/
theorem C9_idempotence_same_halo (M N : Nat) (_hM : 1 ≤ M) (_hN : 1 ≤ N) (g next : List Int)
    (_hs : g.length = (M + 2) * (N + 2)) (hn : next.length = (M + 2) * (N + 2))
    (hhalo : ∀ i, i ≤ M + 1 → ∀ j, j ≤ N + 1 →
      (i = 0 ∨ i = M + 1 ∨ j = 0 ∨ j = N + 1) → get N next i j = get N g i j)
    (h0 : (percolate_cpu_step M N g next).2 = 0) :
    (∀ i j, 1 ≤ i ∧ i ≤ M → 1 ≤ j ∧ j ≤ N →
      get N (percolate_cpu_step M N g next).1 i j = get N g i j) ∧
    (∀ next2 : List Int,
      (percolate_cpu_step M N (percolate_cpu_step M N g next).1 next2).2 = 0) := by
  have hfix := (step_count_eq_zero M N g next).1 h0
  have hact : ∀ i j, 1 ≤ i ∧ i ≤ M → 1 ≤ j ∧ j ≤ N →
      get N (percolate_cpu_step M N g next).1 i j = get N g i j := by
    intro i j hi hj
    rw [step_get_active M N g next hn hi hj]
    exact hfix (i, j) ((mem_activeCells M N (i, j)).2 ⟨hi, hj⟩)
  have hall : ∀ i j, i ≤ M + 1 → j ≤ N + 1 →
      get N (percolate_cpu_step M N g next).1 i j = get N g i j := by
    intro i j hi hj
    by_cases ha : (1 ≤ i ∧ i ≤ M) ∧ (1 ≤ j ∧ j ≤ N)
    · exact hact i j ha.1 ha.2
    · rw [get_step_inactive M N g next hj ha]
      exact hhalo i hi j hj (by omega)
  refine ⟨hact, fun next2 => ?_⟩
  rw [step_count_eq_zero]
  intro c hc
  have hm := (mem_activeCells M N c).1 hc
  rw [newval_congr N g _ c.1 c.2 (hall _ _ (by omega) (by omega))
    (hall _ _ (by omega) (by omega)) (hall _ _ (by omega) (by omega))
    (hall _ _ (by omega) (by omega)) (hall _ _ (by omega) (by omega)),
    hall _ _ (by omega) (by omega)]
  exact hfix c hc

/-- Witness of the amended C9: the converged 1x5 strip, stepped into a copy of itself. -/
theorem C9_idempotence_same_halo_witness :
    (∀ i j, 1 ≤ i ∧ i ≤ 1 → 1 ≤ j ∧ j ≤ 5 →
      get 5 (percolate_cpu_step 1 5 (percolate_cpu 1 5 strip5) (percolate_cpu 1 5 strip5)).1 i j
        = get 5 (percolate_cpu 1 5 strip5) i j) ∧
    (∀ next2 : List Int,
      (percolate_cpu_step 1 5
        (percolate_cpu_step 1 5 (percolate_cpu 1 5 strip5) (percolate_cpu 1 5 strip5)).1
        next2).2 = 0) :=
  C9_idempotence_same_halo 1 5 (by decide) (by decide) (percolate_cpu 1 5 strip5)
    (percolate_cpu 1 5 strip5) (by decide) (by decide) (fun _ _ _ _ _ => rfl) (by decide)

theorem foldl_gpuUnit_eq (N : Nat) (state : List Int) (cs : List (Nat × Nat))
    (acc : List Int × Nat) :
    cs.foldl (gpuUnit N state) acc.1 = (cs.foldl (cellBody N state) acc).1 := by
  induction cs generalizing acc with
  | nil => rfl
  | cons c cs ih =>
    rw [List.foldl_cons, List.foldl_cons, ← ih]
    simp only [gpuUnit, cellBody, newval_eq_specCell]

/-- The buffer written by the loop body over a list of cells depends only on which
cells the list holds, not on their order. -/
theorem foldl_cellBody_order (N : Nat) (state : List Int) (cs cs' : List (Nat × Nat))
    (acc acc' : List Int × Nat) (hacc : acc.1 = acc'.1) (hmem : ∀ c, c ∈ cs ↔ c ∈ cs')
    (hcs : ∀ c ∈ cs, c.2 < N + 2) :
    (cs.foldl (cellBody N state) acc).1 = (cs'.foldl (cellBody N state) acc').1 := by
  have hcs' : ∀ c ∈ cs', c.2 < N + 2 := fun c hc => hcs c ((hmem c).2 hc)
  apply List.ext_getElem?
  intro p
  by_cases h : ∃ c ∈ cs, c.1 * (N + 2) + c.2 = p
  · obtain ⟨c, hc, rfl⟩ := h
    rcases Nat.lt_or_ge (c.1 * (N + 2) + c.2) acc.1.length with hlt | hge
    · rw [foldl_cellBody_written N state cs acc hcs c hc hlt,
        foldl_cellBody_written N state cs' acc' hcs' c ((hmem c).1 hc) (hacc ▸ hlt)]
    · rw [List.getElem?_eq_none (by rw [foldl_cellBody_length]; exact hge),
        List.getElem?_eq_none (by rw [foldl_cellBody_length, ← hacc]; exact hge)]
  · have h1 : ∀ c ∈ cs, c.1 * (N + 2) + c.2 ≠ p := fun c hc he => h ⟨c, hc, he⟩
    have h2 : ∀ c ∈ cs', c.1 * (N + 2) + c.2 ≠ p := fun c hc he => h ⟨c, (hmem c).2 hc, he⟩
    rw [foldl_cellBody_other N state cs acc p h1, foldl_cellBody_other N state cs' acc' p h2,
      hacc]

theorem sum_map_ite_eq_countP {α : Type} (p : α → Prop) [DecidablePred p] (l : List α) :
    (l.map (fun c => if p c then 1 else 0)).sum = l.countP (fun c => decide (p c)) := by
  induction l with
  | nil => rfl
  | cons a l ih =>
    rw [List.map_cons, List.sum_cons, ih, List.countP_cons]
    by_cases h : p a <;> simp [h, Nat.add_comm]

/-- Under any ordering of the active cells, the parallel step computes what the
sequential step computes: the same buffer and the same change count. -/
theorem gpu_step_eq (M N : Nat) (sched : List (Nat × Nat))
    (hsched : sched.Perm (activeCells M N)) (state next : List Int)
    (hn : next.length = (M + 2) * (N + 2)) :
    percolate_gpu_step N sched state next = percolate_cpu_step M N state next := by
  have hbuf : sched.foldl (gpuUnit N state) next = (percolate_cpu_step M N state next).1 := by
    rw [step_eq_foldl, foldl_gpuUnit_eq N state sched (next, 0)]
    exact foldl_cellBody_order N state sched (activeCells M N) _ _ rfl
      (fun c => hsched.mem_iff)
      (fun c hc => by have := (mem_activeCells M N c).1 (hsched.mem_iff.1 hc); omega)
  apply Prod.ext
  · exact hbuf
  · show (sched.map _).sum = _
    rw [hbuf, sum_map_ite_eq_countP, hsched.countP_eq, step_count]
    apply List.countP_congr
    intro c hc
    have hm := (mem_activeCells M N c).1 hc
    rw [bumps_iff, decide_eq_true_eq, step_get_active M N state next hn hm.1 hm.2]

theorem gpuLoopBody_eq (M N : Nat) (sched : Nat → List (Nat × Nat))
    (hsched : ∀ n, (sched n).Perm (activeCells M N)) (s : Loop)
    (hn : s.next.length = (M + 2) * (N + 2)) : gpuLoopBody N sched s = loopBody M N s := by
  simp only [gpuLoopBody, loopBody, gpu_step_eq M N _ (hsched s.step) s.current s.next hn]

theorem loopBody_lengths (M N : Nat) (s : Loop)
    (hc : s.current.length = (M + 2) * (N + 2)) (hn : s.next.length = (M + 2) * (N + 2)) :
    (loopBody M N s).current.length = (M + 2) * (N + 2) ∧
    (loopBody M N s).next.length = (M + 2) * (N + 2) := by
  rw [loopBody_current, loopBody_next, step_length]
  exact ⟨hn, hc⟩

theorem gpuWhileLoop_eq (M N maxstep : Nat) (sched : Nat → List (Nat × Nat))
    (hsched : ∀ n, (sched n).Perm (activeCells M N)) (fuel : Nat) (s : Loop)
    (hc : s.current.length = (M + 2) * (N + 2)) (hn : s.next.length = (M + 2) * (N + 2)) :
    gpuWhileLoop N maxstep sched fuel s = whileLoop M N maxstep fuel s := by
  induction fuel generalizing s with
  | zero => rfl
  | succ fuel ih =>
    rw [gpuWhileLoop, whileLoop, gpuLoopBody_eq M N sched hsched s hn]
    split
    · exact ih _ (loopBody_lengths M N s hc hn).1 (loopBody_lengths M N s hc hn).2
    · rfl

theorem ndiff_self_aux (l : List Int) (k : Nat) :
    (l.zip l).foldl (fun acc ab => acc + (if ab.1 = ab.2 then 0 else 1)) k = k := by
  induction l generalizing k with
  | nil => rfl
  | cons a l ih => simp only [List.zip_cons_cons, List.foldl_cons, if_true, Nat.add_zero, ih]

/-- C10: backend equivalence.  For `M, N ≥ 1`, an initial grid of `(M+2)*(N+2)` cells and
any orders `sched` in which the parallel units of work complete at each step,
`percolate_gpu` and `percolate_cpu`, each run on the initial grid, leave the same
final grid, and the count `ndiff` of differing positions computed by the test is 0. -/
theorem C10_backend_equivalence (M N : Nat) (_hM : 1 ≤ M) (_hN : 1 ≤ N) (g : List Int)
    (hs : g.length = (M + 2) * (N + 2)) (sched : Nat → List (Nat × Nat))
    (hsched : ∀ n, (sched n).Perm (activeCells M N)) :
    percolate_gpu M N sched g = percolate_cpu M N g ∧
      ndiff (percolate_cpu M N g) (percolate_gpu M N sched g) = 0 := by
  have hloop : gpuWhileLoop N (4 * max M N) sched (4 * max M N) (initLoop M N g) =
      exitLoop M N g :=
    gpuWhileLoop_eq M N _ sched hsched _ _ (by rw [initLoop_current]; exact hs)
      (by rw [initLoop_next M N g hs]; exact hs)
  have heq : percolate_gpu M N sched g = percolate_cpu M N g := by
    simp only [percolate_gpu, percolate_cpu, hloop]
  refine ⟨heq, ?_⟩
  rw [heq]
  exact ndiff_self_aux _ 0

/-- Witness of C10 on the 1x5 strip with the schedule that alternates between the
row-major order and its reverse. -/
theorem C10_backend_equivalence_witness :
    percolate_gpu 1 5 (zigzagSched 1 5) strip5 = percolate_cpu 1 5 strip5 ∧
      ndiff (percolate_cpu 1 5 strip5) (percolate_gpu 1 5 (zigzagSched 1 5) strip5) = 0 :=
  C10_backend_equivalence 1 5 (by decide) (by decide) strip5 (by decide) (zigzagSched 1 5)
    (fun n => by
      unfold zigzagSched
      split
      · exact List.Perm.refl _
      · exact List.reverse_perm _)

theorem getD_set_zero_of_zero (m : List Int) (p q : Nat) (h : m.getD p 0 = 0) :
    (m.set q 0).getD p 0 = 0 := by
  rw [List.getD_eq_getElem?_getD] at h ⊢
  rw [List.getElem?_set]
  split
  · split <;> rfl
  · exact h

theorem getD_set_zero_self (m : List Int) (q : Nat) : (m.set q 0).getD q 0 = 0 := by
  rw [List.getD_eq_getElem?_getD, List.getElem?_set, if_pos rfl]
  split <;> rfl

theorem zeroRows_fold_zero (M N : Nat) (js : List Nat) (m : List Int) (p : Nat)
    (h : m.getD p 0 = 0) :
    (js.foldl (fun m j => (m.set (0 * (N + 2) + j) 0).set ((M + 1) * (N + 2) + j) 0) m).getD p 0
      = 0 := by
  induction js generalizing m with
  | nil => exact h
  | cons j js ih =>
    rw [List.foldl_cons]
    exact ih _ (getD_set_zero_of_zero _ _ _ (getD_set_zero_of_zero _ _ _ h))

theorem zeroRows_fold_written (M N : Nat) (js : List Nat) (m : List Int) (j : Nat)
    (hj : j ∈ js) :
    (js.foldl (fun m j => (m.set (0 * (N + 2) + j) 0).set ((M + 1) * (N + 2) + j) 0) m).getD
        (0 * (N + 2) + j) 0 = 0 ∧
    (js.foldl (fun m j => (m.set (0 * (N + 2) + j) 0).set ((M + 1) * (N + 2) + j) 0) m).getD
        ((M + 1) * (N + 2) + j) 0 = 0 := by
  induction js generalizing m with
  | nil => cases hj
  | cons j0 js ih =>
    rw [List.foldl_cons]
    rcases List.mem_cons.1 hj with h | h
    · subst h
      exact ⟨zeroRows_fold_zero M N js _ _
          (getD_set_zero_of_zero _ _ _ (getD_set_zero_self _ _)),
        zeroRows_fold_zero M N js _ _ (getD_set_zero_self _ _)⟩
    · exact ih _ h

theorem zeroCols_fold_zero (N : Nat) (is : List Nat) (m : List Int) (p : Nat)
    (h : m.getD p 0 = 0) :
    (is.foldl (fun m i => (m.set (i * (N + 2) + 0) 0).set (i * (N + 2) + (N + 1)) 0) m).getD p 0
      = 0 := by
  induction is generalizing m with
  | nil => exact h
  | cons i is ih =>
    rw [List.foldl_cons]
    exact ih _ (getD_set_zero_of_zero _ _ _ (getD_set_zero_of_zero _ _ _ h))

theorem zeroCols_fold_written (N : Nat) (is : List Nat) (m : List Int) (i : Nat)
    (hi : i ∈ is) :
    (is.foldl (fun m i => (m.set (i * (N + 2) + 0) 0).set (i * (N + 2) + (N + 1)) 0) m).getD
        (i * (N + 2) + 0) 0 = 0 ∧
    (is.foldl (fun m i => (m.set (i * (N + 2) + 0) 0).set (i * (N + 2) + (N + 1)) 0) m).getD
        (i * (N + 2) + (N + 1)) 0 = 0 := by
  induction is generalizing m with
  | nil => cases hi
  | cons i0 is ih =>
    rw [List.foldl_cons]
    rcases List.mem_cons.1 hi with h | h
    · subst h
      exact ⟨zeroCols_fold_zero N is _ _
          (getD_set_zero_of_zero _ _ _ (getD_set_zero_self _ _)),
        zeroCols_fold_zero N is _ _ (getD_set_zero_self _ _)⟩
    · exact ih _ h

theorem length_zeroRows (M N : Nat) (m : List Int) : (zeroRows M N m).length = m.length := by
  unfold zeroRows
  generalize List.range (N + 2) = js
  induction js generalizing m with
  | nil => rfl
  | cons j js ih => rw [List.foldl_cons, ih]; simp

theorem length_zeroCols (M N : Nat) (m : List Int) : (zeroCols M N m).length = m.length := by
  unfold zeroCols
  generalize List.range' 1 M = is
  induction is generalizing m with
  | nil => rfl
  | cons i is ih => rw [List.foldl_cons, ih]; simp

/-- After the two edge loops of `fill_map` every halo cell reads 0. -/
theorem zeroed_halo (M N : Nat) (m : List Int) (i j : Nat) (hi : i ≤ M + 1) (hj : j ≤ N + 1)
    (hij : i = 0 ∨ i = M + 1 ∨ j = 0 ∨ j = N + 1) :
    get N (zeroCols M N (zeroRows M N m)) i j = 0 := by
  unfold get
  by_cases hrow : i = 0 ∨ i = M + 1
  · have hw := zeroRows_fold_written M N (List.range (N + 2)) m j
      (List.mem_range.2 (by omega))
    apply zeroCols_fold_zero
    rcases hrow with h | h
    · subst h; exact hw.1
    · subst h; exact hw.2
  · have hw := zeroCols_fold_written N (List.range' 1 M) (zeroRows M N m) i
      (List.mem_range'_1.2 (by omega))
    rcases hij with h | h | h | h
    · exact absurd (Or.inl h) hrow
    · exact absurd (Or.inr h) hrow
    · subst h; exact hw.1
    · subst h; exact hw.2


theorem fill_eq_foldl (hole : Nat → Bool) (M N : Nat) (s : Fill) :
    (List.range' 1 M).foldl (fun a i => fillRow hole N a i) s =
      (activeCells M N).foldl (fillBody hole N) s := by
  unfold activeCells fillRow
  generalize List.range' 1 M = rows
  induction rows generalizing s with
  | nil => rfl
  | cons i rows ih =>
    simp only [List.foldl_cons, List.flatMap_cons, List.foldl_append, List.foldl_map]
    exact ih _

theorem fillBody_length (hole : Nat → Bool) (N : Nat) (s : Fill) (c : Nat × Nat) :
    (fillBody hole N s c).map.length = s.map.length := by
  unfold fillBody
  split <;> simp

theorem fillBody_drawn (hole : Nat → Bool) (N : Nat) (s : Fill) (c : Nat × Nat) :
    (fillBody hole N s c).drawn = s.drawn + 1 := by
  unfold fillBody
  split <;> rfl

theorem fillBody_nhole (hole : Nat → Bool) (N : Nat) (s : Fill) (c : Nat × Nat) :
    (fillBody hole N s c).nhole = if hole s.drawn then s.nhole + 1 else s.nhole := by
  unfold fillBody
  split <;> rfl

theorem fillBody_other (hole : Nat → Bool) (N : Nat) (s : Fill) (c : Nat × Nat) (p : Nat)
    (hp : c.1 * (N + 2) + c.2 ≠ p) : (fillBody hole N s c).map[p]? = s.map[p]? := by
  unfold fillBody
  split <;> exact List.getElem?_set_ne hp

theorem fillBody_self (hole : Nat → Bool) (N : Nat) (s : Fill) (c : Nat × Nat)
    (hlt : c.1 * (N + 2) + c.2 < s.map.length) :
    get N (fillBody hole N s c).map c.1 c.2 =
      if hole s.drawn then ((s.nhole + 1 : Nat) : Int) else 0 := by
  unfold fillBody get
  split <;> simp [List.getD_eq_getElem?_getD, List.getElem?_set_self hlt]

theorem fill_fold_length (hole : Nat → Bool) (N : Nat) (cs : List (Nat × Nat)) (s : Fill) :
    (cs.foldl (fillBody hole N) s).map.length = s.map.length := by
  induction cs generalizing s with
  | nil => rfl
  | cons c cs ih => rw [List.foldl_cons, ih, fillBody_length]

theorem fill_fold_other (hole : Nat → Bool) (N : Nat) (cs : List (Nat × Nat)) (s : Fill)
    (p : Nat) (hp : ∀ c ∈ cs, c.1 * (N + 2) + c.2 ≠ p) :
    (cs.foldl (fillBody hole N) s).map[p]? = s.map[p]? := by
  induction cs generalizing s with
  | nil => rfl
  | cons c cs ih =>
    rw [List.foldl_cons, ih _ (fun c' hc' => hp c' (List.mem_cons_of_mem _ hc')),
      fillBody_other hole N s c p (hp c (List.mem_cons_self _ _))]

theorem fill_fold_nhole (hole : Nat → Bool) (N : Nat) (cs : List (Nat × Nat)) (s : Fill) :
    (cs.foldl (fillBody hole N) s).nhole =
      s.nhole + (List.range' s.drawn cs.length).countP hole := by
  induction cs generalizing s with
  | nil => rfl
  | cons c cs ih =>
    rw [List.foldl_cons, ih, fillBody_drawn, fillBody_nhole, List.length_cons,
      List.range'_succ, List.countP_cons]
    split <;> omega

/-- The values the filling loop leaves in the cells of `cs`, read in the order of `cs`. -/
theorem fill_fold_values (hole : Nat → Bool) (N : Nat) (cs : List (Nat × Nat)) (s : Fill)
    (hnd : cs.Nodup) (hcs : ∀ c ∈ cs, c.2 < N + 2 ∧ c.1 * (N + 2) + c.2 < s.map.length) :
    cs.map (fun c => get N (cs.foldl (fillBody hole N) s).map c.1 c.2) =
      labelsFrom hole s.drawn s.nhole cs.length := by
  induction cs generalizing s with
  | nil => rfl
  | cons c cs ih =>
    have hc := hcs c (List.mem_cons_self _ _)
    have hnd' := List.nodup_cons.1 hnd
    have hrest : ∀ c' ∈ cs, c'.2 < N + 2 ∧
        c'.1 * (N + 2) + c'.2 < (fillBody hole N s c).map.length := fun c' hc' => by
      rw [fillBody_length]; exact hcs c' (List.mem_cons_of_mem _ hc')
    have hhead : get N (cs.foldl (fillBody hole N) (fillBody hole N s c)).map c.1 c.2 =
        if hole s.drawn then ((s.nhole + 1 : Nat) : Int) else 0 := by
      rw [← fillBody_self hole N s c hc.2]
      unfold get
      rw [List.getD_eq_getElem?_getD, List.getD_eq_getElem?_getD, fill_fold_other]
      intro c' hc' heq
      have h1 := (hcs c' (List.mem_cons_of_mem _ hc')).1
      obtain ⟨e1, e2⟩ := idx_inj N h1 hc.1 heq
      exact hnd'.1 (by rwa [show c = c' from Prod.ext e1.symm e2.symm])
    rw [List.map_cons, List.foldl_cons, hhead, ih _ hnd'.2 hrest, List.length_cons, labelsFrom,
      fillBody_drawn, fillBody_nhole]
    split <;> rfl

theorem labelsFrom_filter (hole : Nat → Bool) (t h n : Nat) :
    (labelsFrom hole t h n).filter (fun x => decide (x ≠ 0)) =
      (List.range' (h + 1) ((List.range' t n).countP hole)).map Int.ofNat := by
  induction n generalizing t h with
  | zero => rfl
  | succ n ih =>
    rw [labelsFrom, List.range'_succ, List.countP_cons]
    by_cases ht : hole t = true
    · rw [if_pos ht, if_pos ht, List.filter_cons,
        if_pos (by simp only [decide_eq_true_eq]; omega), ih, List.range'_succ, List.map_cons]
      rfl
    · rw [if_neg ht, if_neg ht, List.filter_cons, if_neg (by simp), ih]
      rfl

theorem labelsFrom_nonneg (hole : Nat → Bool) (t h n : Nat) :
    ∀ x ∈ labelsFrom hole t h n, (0 : Int) ≤ x := by
  induction n generalizing t h with
  | zero => intro x hx; cases hx
  | succ n ih =>
    intro x hx
    rw [labelsFrom] at hx
    split at hx
    · rcases List.mem_cons.1 hx with h1 | h1
      · rw [h1]; omega
      · exact ih _ _ x h1
    · rcases List.mem_cons.1 hx with h1 | h1
      · rw [h1]
      · exact ih _ _ x h1

/-- If the values of `f` along `l` that satisfy `p` form a list without repetition, then
`f` is injective on the elements of `l` whose value satisfies `p`. -/
theorem inj_of_nodup_filter_map {α : Type} (f : α → Int) (p : Int → Bool) (l : List α)
    (hnd : ((l.map f).filter p).Nodup) (a b : α) (ha : a ∈ l) (hb : b ∈ l)
    (hpa : p (f a) = true) (hab : f a = f b) : a = b := by
  induction l with
  | nil => cases ha
  | cons x xs ih =>
    have hmemf : ∀ y ∈ xs, p (f y) = true → f y ∈ (xs.map f).filter p := fun y hy hpy =>
      List.mem_filter.2 ⟨List.mem_map.2 ⟨y, hy, rfl⟩, hpy⟩
    rw [List.map_cons] at hnd
    rcases List.mem_cons.1 ha with h1 | h1 <;> rcases List.mem_cons.1 hb with h2 | h2
    · rw [h1, h2]
    · subst h1
      rw [List.filter_cons_of_pos hpa] at hnd
      exact absurd (hab ▸ hmemf b h2 (hab ▸ hpa)) (List.nodup_cons.1 hnd).1
    · subst h2
      rw [List.filter_cons_of_pos (hab ▸ hpa)] at hnd
      exact absurd (hab ▸ hmemf a h1 hpa) (List.nodup_cons.1 hnd).1
    · refine ih ?_ h1 h2
      by_cases hx : p (f x) = true
      · rw [List.filter_cons_of_pos hx] at hnd
        exact (List.nodup_cons.1 hnd).2
      · rw [List.filter_cons_of_neg hx] at hnd
        exact hnd


theorem fill_map_eq (hole : Nat → Bool) (M N : Nat) (map : List Int) :
    fill_map hole M N map =
      (((activeCells M N).foldl (fillBody hole N)
          { map := zeroCols M N (zeroRows M N map), nhole := 0, drawn := 0 }).map,
        ((activeCells M N).foldl (fillBody hole N)
          { map := zeroCols M N (zeroRows M N map), nhole := 0, drawn := 0 }).nhole) := by
  unfold fill_map
  rw [fill_eq_foldl]

/-- The labels `fill_map` leaves in the active cells, read in row-major order. -/
theorem fill_map_values (hole : Nat → Bool) (M N : Nat) (map : List Int)
    (hlen : map.length = (M + 2) * (N + 2)) :
    (activeCells M N).map (fun c => get N (fill_map hole M N map).1 c.1 c.2) =
      labelsFrom hole 0 0 (activeCells M N).length := by
  rw [fill_map_eq]
  refine fill_fold_values hole N (activeCells M N) _ (nodup_activeCells M N) ?_
  intro c hc
  have hm := (mem_activeCells M N c).1 hc
  refine ⟨by omega, ?_⟩
  show _ < (zeroCols M N (zeroRows M N map)).length
  rw [length_zeroCols, length_zeroRows, hlen]
  exact idx_lt M N (by omega) (by omega)

theorem fill_map_nhole (hole : Nat → Bool) (M N : Nat) (map : List Int) :
    (fill_map hole M N map).2 = (List.range' 0 (activeCells M N).length).countP hole := by
  rw [fill_map_eq]
  show ((activeCells M N).foldl (fillBody hole N) _).nhole = _
  rw [fill_fold_nhole]
  exact Nat.zero_add _

/-- The non-zero labels of `fill_map`, in row-major order, are `1, 2, ..., nhole`. -/
theorem fill_map_labels (hole : Nat → Bool) (M N : Nat) (map : List Int)
    (hlen : map.length = (M + 2) * (N + 2)) :
    ((activeCells M N).map (fun c => get N (fill_map hole M N map).1 c.1 c.2)).filter
        (fun x => decide (x ≠ 0)) =
      (List.range' 1 (fill_map hole M N map).2).map Int.ofNat := by
  rw [fill_map_values hole M N map hlen, labelsFrom_filter, fill_map_nhole]

/-- C11: `fill_map` produces a valid initial grid.  For `M, N ≥ 1`, a buffer of
`(M+2)*(N+2)` cells and every sequence `hole` of outcomes of the random draws, the map
written has every halo cell 0 and every active cell 0 or positive, its non-zero labels
are pairwise distinct and read `1, 2, ..., nhole` in row-major order, and the value
returned is `nhole`, the number of non-zero active cells. -/
theorem C11_fill_map_valid (M N : Nat) (_hM : 1 ≤ M) (_hN : 1 ≤ N) (hole : Nat → Bool)
    (map : List Int) (hlen : map.length = (M + 2) * (N + 2)) :
    ValidGrid M N (fill_map hole M N map).1 ∧
    ((activeCells M N).map (fun c => get N (fill_map hole M N map).1 c.1 c.2)).filter
        (fun x => decide (x ≠ 0)) =
      (List.range' 1 (fill_map hole M N map).2).map Int.ofNat ∧
    (fill_map hole M N map).2 =
      (activeCells M N).countP (fun c => decide (get N (fill_map hole M N map).1 c.1 c.2 ≠ 0)) := by
  have hlabels := fill_map_labels hole M N map hlen
  have hvalues := fill_map_values hole M N map hlen
  refine ⟨⟨?_, ?_, ?_, ?_⟩, hlabels, ?_⟩
  · rw [fill_map_eq]
    show ((activeCells M N).foldl (fillBody hole N) _).map.length = _
    rw [fill_fold_length]
    show (zeroCols M N (zeroRows M N map)).length = _
    rw [length_zeroCols, length_zeroRows, hlen]
  · intro i hi j hj hij
    rw [← zeroed_halo M N map i j hi hj hij, fill_map_eq]
    unfold get
    rw [List.getD_eq_getElem?_getD, List.getD_eq_getElem?_getD]
    show (((activeCells M N).foldl (fillBody hole N) _).map[i * (N + 2) + j]?).getD 0 = _
    rw [fill_fold_other]
    intro c hc heq
    have hm := (mem_activeCells M N c).1 hc
    obtain ⟨e1, e2⟩ := idx_inj N (by omega) (by omega) heq
    omega
  · intro c hc
    apply labelsFrom_nonneg hole 0 0 (activeCells M N).length
    rw [← hvalues]
    exact List.mem_map.2 ⟨c, hc, rfl⟩
  · intro a ha b hb hne hab
    refine inj_of_nodup_filter_map (fun c => get N (fill_map hole M N map).1 c.1 c.2)
      (fun x => decide (x ≠ 0)) (activeCells M N) ?_ a b ha hb (by simpa using hne) hab
    rw [hlabels]
    exact (List.nodup_range' 1 _).map (fun x y h => Int.ofNat.inj h)
  · have hcount : (activeCells M N).countP
        (fun c => decide (get N (fill_map hole M N map).1 c.1 c.2 ≠ 0)) =
        (((activeCells M N).map (fun c => get N (fill_map hole M N map).1 c.1 c.2)).filter
          (fun x => decide (x ≠ 0))).length := by
      rw [← List.countP_eq_length_filter, List.countP_map]
      rfl
    rw [hcount, hlabels, List.length_map, List.length_range']

/-- Witness of C11: a 2x3 map filled with every second draw a hole, on a buffer that
held 9 everywhere. -/
theorem C11_fill_map_valid_witness :
    fill_map everyOther 2 3 (List.replicate 20 9) =
      ([0, 0, 0, 0, 0,
        0, 1, 0, 2, 0,
        0, 0, 3, 0, 0,
        0, 0, 0, 0, 0], 3) ∧
    ValidGrid 2 3 (fill_map everyOther 2 3 (List.replicate 20 9)).1 :=
  ⟨by decide,
    (C11_fill_map_valid 2 3 (by decide) (by decide) everyOther (List.replicate 20 9)
      (by decide)).1⟩

theorem reachIn_cluster (M N : Nat) (g : List Int) (k : Nat) (a b : Nat × Nat)
    (h : reachIn M N g k a b) : Relation.ReflTransGen (fluidAdj M N g) a b := by
  induction k generalizing a with
  | zero =>
    simp only [reachIn] at h
    subst h
    exact Relation.ReflTransGen.refl
  | succ k ih =>
    simp only [reachIn] at h
    rcases h with h | ⟨c, hac, hcb⟩
    · exact ih a h
    · exact Relation.ReflTransGen.head hac (ih c hcb)

theorem cluster_fluid (M N : Nat) (g : List Int) (a b : Nat × Nat) (ha : fluid M N g a)
    (h : Relation.ReflTransGen (fluidAdj M N g) a b) : fluid M N g b := by
  induction h with
  | refl => exact ha
  | tail _ hstep _ => exact hstep.2.1

theorem get_iterate_succ (M N : Nat) (g : List Int) (hs : g.length = (M + 2) * (N + 2))
    (n : Nat) {i j : Nat} (hi : 1 ≤ i ∧ i ≤ M) (hj : 1 ≤ j ∧ j ≤ N) :
    get N ((specStep M N)^[n + 1] g) i j = specCell N ((specStep M N)^[n] g) i j := by
  rw [Function.iterate_succ_apply',
    get_specStep_active M N _ (by rw [iterate_specStep_length, hs]) hi hj]

theorem get_iterate_inactive (M N : Nat) (g : List Int) (n : Nat) {i j : Nat}
    (hj : j ≤ N + 1) (h : ¬ ((1 ≤ i ∧ i ≤ M) ∧ (1 ≤ j ∧ j ≤ N))) :
    get N ((specStep M N)^[n] g) i j = get N g i j := by
  induction n with
  | zero => rfl
  | succ n ih => rw [Function.iterate_succ_apply', get_specStep_inactive M N _ hj h, ih]

theorem get_iterate_solid (M N : Nat) (g : List Int) (hs : g.length = (M + 2) * (N + 2))
    (n : Nat) {i j : Nat} (hi : 1 ≤ i ∧ i ≤ M) (hj : 1 ≤ j ∧ j ≤ N) (h0 : get N g i j = 0) :
    get N ((specStep M N)^[n] g) i j = 0 := by
  induction n with
  | zero => exact h0
  | succ n ih => rw [get_iterate_succ M N g hs n hi hj, specCell, if_pos ih]

/-- A cell of the padded grid that is not a fluid cell of the initial grid reads 0
after any number of steps. -/
theorem get_iterate_not_fluid (M N : Nat) (g : List Int) (hg : LabelledGrid M N g) (n : Nat)
    {i j : Nat} (hi : i ≤ M + 1) (hj : j ≤ N + 1) (h : ¬ fluid M N g (i, j)) :
    get N ((specStep M N)^[n] g) i j = 0 := by
  by_cases ha : (1 ≤ i ∧ i ≤ M) ∧ (1 ≤ j ∧ j ≤ N)
  · apply get_iterate_solid M N g hg.size n ha.1 ha.2
    by_contra hne
    exact h ⟨(mem_activeCells M N (i, j)).2 ha, hne⟩
  · rw [get_iterate_inactive M N g n hj ha]
    exact hg.halo i hi j hj (by omega)

theorem fluid_iterate_pos (M N : Nat) (g : List Int) (hg : LabelledGrid M N g) (c : Nat × Nat)
    (hc : fluid M N g c) (n : Nat) : 0 < get N ((specStep M N)^[n] g) c.1 c.2 := by
  have hm := (mem_activeCells M N c).1 hc.1
  have h1 := get_le_iterate M N g hg.size hm.1 hm.2 n
  have h2 := hg.nonneg c hc.1
  have h3 := hc.2
  omega

/-- The update rule gives a fluid cell at least the value of each adjacent cell. -/
theorem neighbour_le_specCell (N : Nat) (g : List Int) (a e : Nat × Nat)
    (hne : get N g a.1 a.2 ≠ 0) (hadj : adjacent a e) :
    get N g e.1 e.2 ≤ specCell N g a.1 a.2 := by
  obtain ⟨a1, a2⟩ := a
  obtain ⟨e1, e2⟩ := e
  simp only [adjacent] at hadj
  simp only at hne ⊢
  rw [specCell, if_neg hne]
  rcases hadj with ⟨h1, h2 | h2⟩ | ⟨h1, h2 | h2⟩
  · subst h1; subst h2; omega
  · subst h1; subst h2; rw [Nat.add_sub_cancel]; omega
  · subst h1; subst h2; omega
  · subst h1; subst h2; rw [Nat.add_sub_cancel]; omega

/-- Upper bound of the propagation: after `k` steps a fluid cell is at least the initial
label of every fluid cell within `k` moves. -/
theorem reach_le_iterate (M N : Nat) (g : List Int) (hg : LabelledGrid M N g) (k : Nat)
    (c d : Nat × Nat) (hc : fluid M N g c) (h : reachIn M N g k c d) :
    get N g d.1 d.2 ≤ get N ((specStep M N)^[k] g) c.1 c.2 := by
  induction k generalizing c with
  | zero =>
    simp only [reachIn] at h
    subst h
    exact le_refl _
  | succ k ih =>
    have hm := (mem_activeCells M N c).1 hc.1
    simp only [reachIn] at h
    rcases h with h | ⟨e, hce, hed⟩
    · rw [Function.iterate_succ_apply']
      exact le_trans (ih c hc h)
        (get_le_specStep M N _ (by rw [iterate_specStep_length, hg.size]) hm.1 hm.2)
    · rw [get_iterate_succ M N g hg.size k hm.1 hm.2]
      exact le_trans (ih e hce.2.1 hed)
        (neighbour_le_specCell N _ c e (ne_of_gt (fluid_iterate_pos M N g hg c hc k)) hce.2.2)

/-- The label of a fluid cell after `k` steps is the initial label of a fluid cell
within `k` moves. -/
theorem iterate_attained (M N : Nat) (g : List Int) (hg : LabelledGrid M N g) (k : Nat)
    (c : Nat × Nat) (hc : fluid M N g c) :
    ∃ d, reachIn M N g k c d ∧
      get N ((specStep M N)^[k] g) c.1 c.2 = get N g d.1 d.2 := by
  induction k generalizing c with
  | zero => exact ⟨c, rfl, rfl⟩
  | succ k ih =>
    have hm := (mem_activeCells M N c).1 hc.1
    have hpos := fluid_iterate_pos M N g hg c hc k
    have hval := get_iterate_succ M N g hg.size k hm.1 hm.2
    rw [specCell, if_neg (ne_of_gt hpos)] at hval
    -- a neighbour that supplies the maximum is a fluid cell
    have hnb : ∀ e : Nat × Nat, e.1 ≤ M + 1 → e.2 ≤ N + 1 → adjacent c e →
        get N ((specStep M N)^[k + 1] g) c.1 c.2 = get N ((specStep M N)^[k] g) e.1 e.2 →
        ∃ d, reachIn M N g (k + 1) c d ∧
          get N ((specStep M N)^[k + 1] g) c.1 c.2 = get N g d.1 d.2 := by
      intro e he1 he2 hadj heq
      have hfe : fluid M N g e := by
        by_contra hnf
        have h0 := get_iterate_not_fluid M N g hg k he1 he2 hnf
        have hle := get_le_specStep M N ((specStep M N)^[k] g)
          (by rw [iterate_specStep_length, hg.size]) hm.1 hm.2
        rw [← Function.iterate_succ_apply' (specStep M N) k g] at hle
        omega
      obtain ⟨d, hd, hde⟩ := ih e hfe
      exact ⟨d, Or.inr ⟨e, ⟨hc, hfe, hadj⟩, hd⟩, heq.trans hde⟩
    have hcases : get N ((specStep M N)^[k + 1] g) c.1 c.2 =
          get N ((specStep M N)^[k] g) c.1 c.2 ∨
        get N ((specStep M N)^[k + 1] g) c.1 c.2 =
          get N ((specStep M N)^[k] g) (c.1 - 1) c.2 ∨
        get N ((specStep M N)^[k + 1] g) c.1 c.2 =
          get N ((specStep M N)^[k] g) (c.1 + 1) c.2 ∨
        get N ((specStep M N)^[k + 1] g) c.1 c.2 =
          get N ((specStep M N)^[k] g) c.1 (c.2 - 1) ∨
        get N ((specStep M N)^[k + 1] g) c.1 c.2 =
          get N ((specStep M N)^[k] g) c.1 (c.2 + 1) := by
      omega
    rcases hcases with h | h | h | h | h
    · obtain ⟨d, hd, hdc⟩ := ih c hc
      exact ⟨d, Or.inl hd, h.trans hdc⟩
    · exact hnb (c.1 - 1, c.2) (by simp only; omega) (by simp only; omega)
        (Or.inr ⟨rfl, Or.inr (by simp only; omega)⟩) h
    · exact hnb (c.1 + 1, c.2) (by simp only; omega) (by simp only; omega)
        (Or.inr ⟨rfl, Or.inl rfl⟩) h
    · exact hnb (c.1, c.2 - 1) (by simp only; omega) (by simp only; omega)
        (Or.inl ⟨rfl, Or.inr (by simp only; omega)⟩) h
    · exact hnb (c.1, c.2 + 1) (by simp only; omega) (by simp only; omega)
        (Or.inl ⟨rfl, Or.inl rfl⟩) h

theorem afterSteps_current_eq (M N : Nat) (g : List Int) (hs : g.length = (M + 2) * (N + 2))
    (n : Nat) : (afterSteps M N g n).current = (specStep M N)^[n] g :=
  (afterSteps_inv M N g hs n).1


/-- C12: propagation depth.  For `M, N ≥ 1`, a grid with halo 0 and positive fluid
labels, and every `k`, after `k` steps of the loop each fluid cell holds the maximum of
the initial labels of the fluid cells within `k` moves between 4-adjacent fluid cells:
its value is the initial label of such a cell, and no such cell had a larger one. -/
theorem C12_propagation_depth (M N : Nat) (_hM : 1 ≤ M) (_hN : 1 ≤ N) (g : List Int)
    (hg : LabelledGrid M N g) (k : Nat) (c : Nat × Nat) (hc : fluid M N g c) :
    (∃ d, reachIn M N g k c d ∧
      get N (afterSteps M N g k).current c.1 c.2 = get N g d.1 d.2) ∧
    (∀ d, reachIn M N g k c d →
      get N g d.1 d.2 ≤ get N (afterSteps M N g k).current c.1 c.2) := by
  rw [afterSteps_current_eq M N g hg.size k]
  exact ⟨iterate_attained M N g hg k c hc, fun d hd => reach_le_iterate M N g hg k c d hc hd⟩

/-- Witness of C12 on the 1x5 strip: after 2 steps the cell (1, 1) holds the label of a
cell within 2 moves and bounds the labels of all such cells. -/
theorem C12_propagation_depth_witness :
    (∃ d, reachIn 1 5 strip5 2 (1, 1) d ∧
      get 5 (afterSteps 1 5 strip5 2).current 1 1 = get 5 strip5 d.1 d.2) ∧
    (∀ d, reachIn 1 5 strip5 2 (1, 1) d →
      get 5 strip5 d.1 d.2 ≤ get 5 (afterSteps 1 5 strip5 2).current 1 1) :=
  C12_propagation_depth 1 5 (by decide) (by decide) strip5 ⟨by decide, by decide, by decide⟩ 2
    (1, 1) (by decide)

/-- At a fixed point, the label of a fluid cell bounds the labels of all cells of its
cluster. -/
theorem fixed_cluster_le (M N : Nat) (g : List Int) (hg : LabelledGrid M N g) (n : Nat)
    (hfix : specStep M N ((specStep M N)^[n] g) = (specStep M N)^[n] g)
    (c d : Nat × Nat) (hc : fluid M N g c)
    (h : Relation.ReflTransGen (fluidAdj M N g) c d) :
    get N ((specStep M N)^[n] g) d.1 d.2 ≤ get N ((specStep M N)^[n] g) c.1 c.2 := by
  induction h with
  | refl => exact le_refl _
  | tail hcb hbd ih =>
    have hb := cluster_fluid M N g c _ hc hcb
    have hmb := (mem_activeCells M N _).1 hb.1
    have h1 := neighbour_le_specCell N ((specStep M N)^[n] g) _ _
      (ne_of_gt (fluid_iterate_pos M N g hg _ hb n)) hbd.2.2
    rw [← get_specStep_active M N _ (by rw [iterate_specStep_length, hg.size]) hmb.1 hmb.2,
      hfix] at h1
    exact le_trans h1 ih

/-- C13: correctness at convergence.  For `M, N ≥ 1` and a grid with halo 0 and positive
fluid labels, if `percolate_cpu` leaves its loop with `nchange = 0`, then in the grid
left in `state` every fluid cell holds the maximum initial label of its 4-connected
fluid cluster: the initial label of a cell of the cluster, and at least the initial
label of every cell of the cluster. -/
theorem C13_converged_cluster_maximum (M N : Nat) (hM : 1 ≤ M) (_hN : 1 ≤ N) (g : List Int)
    (hg : LabelledGrid M N g) (hconv : (exitLoop M N g).nchange = 0)
    (c : Nat × Nat) (hc : fluid M N g c) :
    (∃ d, sameCluster M N g c d ∧
      get N (percolate_cpu M N g) c.1 c.2 = get N g d.1 d.2) ∧
    (∀ d, sameCluster M N g c d →
      get N g d.1 d.2 ≤ get N (percolate_cpu M N g) c.1 c.2) := by
  have hfix := final_fixed M N hM g hg.size hconv
  rw [percolate_cpu_eq_iterate M N g hg.size] at hfix ⊢
  constructor
  · obtain ⟨d, hd, hval⟩ := iterate_attained M N g hg (stepsExecuted M N g) c hc
    exact ⟨d, ⟨hc, reachIn_cluster M N g _ c d hd⟩, hval⟩
  · intro d hd
    have hfd := cluster_fluid M N g c d hc hd.2
    have hmd := (mem_activeCells M N d).1 hfd.1
    exact le_trans (get_le_iterate M N g hg.size hmd.1 hmd.2 _)
      (fixed_cluster_le M N g hg _ hfix c d hc hd.2)

/-- Witness of C13 on the 1x5 strip, at the cell (1, 1). -/
theorem C13_converged_cluster_maximum_witness :
    (∃ d, sameCluster 1 5 strip5 (1, 1) d ∧
      get 5 (percolate_cpu 1 5 strip5) 1 1 = get 5 strip5 d.1 d.2) ∧
    (∀ d, sameCluster 1 5 strip5 (1, 1) d →
      get 5 strip5 d.1 d.2 ≤ get 5 (percolate_cpu 1 5 strip5) 1 1) :=
  C13_converged_cluster_maximum 1 5 (by decide) (by decide) strip5
    ⟨by decide, by decide, by decide⟩ (by decide) (1, 1) (by decide)

/-- C14: no cross-cluster propagation.  For `M, N ≥ 1` and a grid with halo 0 and
positive fluid labels, after any number `n` of steps of the loop, and in the grid left
in `state`, the value of a fluid cell is the initial label of a fluid cell of the same
4-connected cluster.  On the two 2x2 blocks labelled 1..4 and 5..8 with a solid column
between them, `percolate_cpu` leaves 4 in the first block and 8 in the second. -/
theorem C14_no_cross_cluster (M N : Nat) (_hM : 1 ≤ M) (_hN : 1 ≤ N) (g : List Int)
    (hg : LabelledGrid M N g) (c : Nat × Nat) (hc : fluid M N g c) :
    (∀ n, ∃ d, sameCluster M N g c d ∧
      get N (afterSteps M N g n).current c.1 c.2 = get N g d.1 d.2) ∧
    (∃ d, sameCluster M N g c d ∧
      get N (percolate_cpu M N g) c.1 c.2 = get N g d.1 d.2) ∧
    percolate_cpu 2 5 twoBlocks =
      [0, 0, 0, 0, 0, 0, 0,
       0, 4, 4, 0, 8, 8, 0,
       0, 4, 4, 0, 8, 8, 0,
       0, 0, 0, 0, 0, 0, 0] := by
  have hall : ∀ n, ∃ d, sameCluster M N g c d ∧
      get N ((specStep M N)^[n] g) c.1 c.2 = get N g d.1 d.2 := by
    intro n
    obtain ⟨d, hd, hval⟩ := iterate_attained M N g hg n c hc
    exact ⟨d, ⟨hc, reachIn_cluster M N g _ c d hd⟩, hval⟩
  refine ⟨fun n => ?_, ?_, by decide⟩
  · rw [afterSteps_current_eq M N g hg.size n]
    exact hall n
  · rw [percolate_cpu_eq_iterate M N g hg.size]
    exact hall _

/-- Witness of C14 on the two blocks, at the cell (1, 2) next to the solid column. -/
theorem C14_no_cross_cluster_witness :
    (∀ n, ∃ d, sameCluster 2 5 twoBlocks (1, 2) d ∧
      get 5 (afterSteps 2 5 twoBlocks n).current 1 2 = get 5 twoBlocks d.1 d.2) ∧
    get 5 (percolate_cpu 2 5 twoBlocks) 1 2 = 4 :=
  ⟨(C14_no_cross_cluster 2 5 (by decide) (by decide) twoBlocks
      ⟨by decide, by decide, by decide⟩ (1, 2) (by decide)).1, by decide⟩

/-- C17: order independence of the step.  For `M, N ≥ 1`, every `state` and `next` and
every ordering `order` of the active cells (a permutation of the row-major list),
running the per-cell update in that order from `state` into the separate buffer `next`
yields the same `next` and the same change count as `percolate_cpu_step`. -/
theorem C17_order_independence (M N : Nat) (_hM : 1 ≤ M) (_hN : 1 ≤ N)
    (state next : List Int) (order : List (Nat × Nat))
    (hperm : order.Perm (activeCells M N)) :
    stepInOrder N order state next = percolate_cpu_step M N state next := by
  rw [step_eq_foldl]
  apply Prod.ext
  · exact foldl_cellBody_order N state order (activeCells M N) _ _ rfl
      (fun c => hperm.mem_iff)
      (fun c hc => by have := (mem_activeCells M N c).1 (hperm.mem_iff.1 hc); omega)
  · show (order.foldl (cellBody N state) (next, 0)).2 = _
    rw [foldl_cellBody_count, foldl_cellBody_count, hperm.countP_eq]

/-- Witness of C17 on the 1x5 strip with the cells taken from right to left. -/
theorem C17_order_independence_witness :
    stepInOrder 5 (activeCells 1 5).reverse strip5 strip5 =
      percolate_cpu_step 1 5 strip5 strip5 :=
  C17_order_independence 1 5 (by decide) (by decide) strip5 strip5 (activeCells 1 5).reverse
    (List.reverse_perm _)

/-- Without a separate `next` the order matters: updated in place, the strip 1, 2, 3
becomes 2, 3, 3 from left to right and 3, 3, 3 from right to left. -/
theorem stepInPlace_order_dependent :
    (stepInPlace 3 (activeCells 1 3) strip3).1 =
      [0, 0, 0, 0, 0, 0, 2, 3, 3, 0, 0, 0, 0, 0, 0] ∧
    (stepInPlace 3 (activeCells 1 3).reverse strip3).1 =
      [0, 0, 0, 0, 0, 0, 3, 3, 3, 0, 0, 0, 0, 0, 0] := by
  decide

theorem getElem?_of_lt (l : List Int) (k : Nat) (h : k < l.length) :
    l[k]? = some (l.getD k 0) := by
  rw [List.getD_eq_getElem?_getD, List.getElem?_eq_getElem h]
  rfl

/-- On an active cell of buffers of the right size, the checked loop body takes no
out-of-range branch and agrees with the loop body. -/
theorem cellBodyChecked_eq (M N : Nat) (state : List Int)
    (hs : state.length = (M + 2) * (N + 2)) (acc : List Int × Nat)
    (ha : acc.1.length = (M + 2) * (N + 2)) (c : Nat × Nat)
    (hi : 1 ≤ c.1 ∧ c.1 ≤ M) (hj : 1 ≤ c.2 ∧ c.2 ≤ N) :
    cellBodyChecked N state acc c = some (cellBody N state acc c) := by
  have h0 := getElem?_of_lt state (c.1 * (N + 2) + c.2)
    (hs ▸ idx_lt M N (by omega) (by omega))
  have h1 := getElem?_of_lt state ((c.1 - 1) * (N + 2) + c.2)
    (hs ▸ idx_lt M N (by omega) (by omega))
  have h2 := getElem?_of_lt state ((c.1 + 1) * (N + 2) + c.2)
    (hs ▸ idx_lt M N (by omega) (by omega))
  have h3 := getElem?_of_lt state (c.1 * (N + 2) + (c.2 - 1))
    (hs ▸ idx_lt M N (by omega) (by omega))
  have h4 := getElem?_of_lt state (c.1 * (N + 2) + (c.2 + 1))
    (hs ▸ idx_lt M N (by omega) (by omega))
  have hw : c.1 * (N + 2) + c.2 < acc.1.length := ha ▸ idx_lt M N (by omega) (by omega)
  unfold cellBodyChecked cellBody newval get
  rw [h0]
  by_cases hne : state.getD (c.1 * (N + 2) + c.2) 0 ≠ 0
  · simp only [hne, h1, h2, h3, h4, hw, if_true, ne_eq, not_false_eq_true]
  · simp only [hne, hw, if_true, if_false, ne_eq]


theorem cellBody_length (N : Nat) (state : List Int) (acc : List Int × Nat) (c : Nat × Nat) :
    (cellBody N state acc c).1.length = acc.1.length := by
  simp [cellBody]

theorem rowLoopChecked_eq (M N : Nat) (state : List Int)
    (hs : state.length = (M + 2) * (N + 2)) (acc : List Int × Nat)
    (ha : acc.1.length = (M + 2) * (N + 2)) (i : Nat) (hi : 1 ≤ i ∧ i ≤ M) :
    rowLoopChecked N state acc i = some (rowLoop N state acc i) := by
  unfold rowLoopChecked rowLoop
  have hmem : ∀ j ∈ List.range' 1 N, 1 ≤ j ∧ j ≤ N := fun j hj => by
    have := List.mem_range'_1.1 hj; omega
  generalize List.range' 1 N = js at hmem
  induction js generalizing acc with
  | nil => rfl
  | cons j js ih =>
    rw [List.foldlM_cons, List.foldl_cons,
      cellBodyChecked_eq M N state hs acc ha (i, j) hi (hmem j (List.mem_cons_self _ _))]
    exact ih _ (by rw [cellBody_length]; exact ha)
      (fun j' hj' => hmem j' (List.mem_cons_of_mem _ hj'))

theorem rowLoop_length (N : Nat) (state : List Int) (acc : List Int × Nat) (i : Nat) :
    (rowLoop N state acc i).1.length = acc.1.length := by
  unfold rowLoop
  generalize List.range' 1 N = js
  induction js generalizing acc with
  | nil => rfl
  | cons j js ih => rw [List.foldl_cons, ih, cellBody_length]

theorem step_checked_eq (M N : Nat) (state next : List Int)
    (hs : state.length = (M + 2) * (N + 2)) (hn : next.length = (M + 2) * (N + 2)) :
    percolate_cpu_step_checked M N state next = some (percolate_cpu_step M N state next) := by
  unfold percolate_cpu_step_checked percolate_cpu_step
  have hmem : ∀ i ∈ List.range' 1 M, 1 ≤ i ∧ i ≤ M := fun i hi => by
    have := List.mem_range'_1.1 hi; omega
  have ha : ((next, 0) : List Int × Nat).1.length = (M + 2) * (N + 2) := hn
  generalize ((next, 0) : List Int × Nat) = acc at ha
  generalize List.range' 1 M = is at hmem
  induction is generalizing acc with
  | nil => rfl
  | cons i is ih =>
    rw [List.foldlM_cons, List.foldl_cons,
      rowLoopChecked_eq M N state hs acc ha i (hmem i (List.mem_cons_self _ _))]
    exact ih _ (by rw [rowLoop_length]; exact ha)
      (fun i' hi' => hmem i' (List.mem_cons_of_mem _ hi'))

/-- C18: branch-free neighbour access is in bounds.  For `M, N ≥ 1` and an active cell
`(i, j)`, the five flat indices `i*(N+2)+j`, `(i-1)*(N+2)+j`, `(i+1)*(N+2)+j`,
`i*(N+2)+(j-1)` and `i*(N+2)+(j+1)`, computed in the integers, lie in `0 ..
(M+2)*(N+2) - 1`; and on buffers `current`, `next` of `(M+2)*(N+2)` cells the
bounds-checked step never takes its out-of-range branch: it returns the result of
`percolate_cpu_step`. -/
theorem C18_access_in_bounds (M N : Nat) (_hM : 1 ≤ M) (_hN : 1 ≤ N) :
    (∀ i j : Nat, 1 ≤ i ∧ i ≤ M → 1 ≤ j ∧ j ≤ N →
      (0 ≤ (i : Int) * (N + 2) + j ∧ (i : Int) * (N + 2) + j < (M + 2) * (N + 2)) ∧
      (0 ≤ ((i : Int) - 1) * (N + 2) + j ∧ ((i : Int) - 1) * (N + 2) + j < (M + 2) * (N + 2)) ∧
      (0 ≤ ((i : Int) + 1) * (N + 2) + j ∧ ((i : Int) + 1) * (N + 2) + j < (M + 2) * (N + 2)) ∧
      (0 ≤ (i : Int) * (N + 2) + (j - 1) ∧ (i : Int) * (N + 2) + (j - 1) < (M + 2) * (N + 2)) ∧
      (0 ≤ (i : Int) * (N + 2) + (j + 1) ∧
        (i : Int) * (N + 2) + (j + 1) < (M + 2) * (N + 2))) ∧
    (∀ state next : List Int, state.length = (M + 2) * (N + 2) →
      next.length = (M + 2) * (N + 2) →
      percolate_cpu_step_checked M N state next = some (percolate_cpu_step M N state next)) := by
  refine ⟨?_, fun state next hs hn => step_checked_eq M N state next hs hn⟩
  intro i j hi hj
  have hi1 : (1 : Int) ≤ i := by exact_mod_cast hi.1
  have hi2 : (i : Int) ≤ M := by exact_mod_cast hi.2
  have hj1 : (1 : Int) ≤ j := by exact_mod_cast hj.1
  have hj2 : (j : Int) ≤ N := by exact_mod_cast hj.2
  have hN0 : (0 : Int) ≤ N := Int.ofNat_nonneg N
  have hlow : 0 ≤ ((i : Int) - 1) * (N + 2) := mul_nonneg (by omega) (by omega)
  have hhigh : ((i : Int) + 1) * (N + 2) ≤ ((M : Int) + 1) * (N + 2) :=
    mul_le_mul_of_nonneg_right (by omega) (by omega)
  have e1 : ((i : Int) - 1) * (N + 2) = i * (N + 2) - (N + 2) := by ring
  have e2 : ((i : Int) + 1) * (N + 2) = i * (N + 2) + (N + 2) := by ring
  have e3 : ((M : Int) + 1) * (N + 2) = (M + 2) * (N + 2) - (N + 2) := by ring
  rw [e1] at hlow
  rw [e2, e3] at hhigh
  rw [e1, e2]
  generalize (i : Int) * (N + 2) = x at *
  generalize ((M : Int) + 2) * (N + 2) = y at *
  omega

/-- Witness of C18 on the 1x5 strip. -/
theorem C18_access_in_bounds_witness :
    percolate_cpu_step_checked 1 5 strip5 strip5 = some (percolate_cpu_step 1 5 strip5 strip5) :=
  (C18_access_in_bounds 1 5 (by decide) (by decide)).2 strip5 strip5 (by decide) (by decide)

/-- C19: the fluid/solid pattern is preserved when labels are non-negative.  For
`M, N ≥ 1`, buffers of `(M+2)*(N+2)` cells and a grid all of whose cells, halo
included, are at least 0, an active cell is non-zero in `next` after the step exactly
when it is non-zero in `current`.  Without non-negativity this fails: the single cell
labelled -1 of `negCell` is overwritten with the 0 of its neighbours. -/
theorem C19_pattern_preserved (M N : Nat) (_hM : 1 ≤ M) (_hN : 1 ≤ N) (state next : List Int)
    (_hs : state.length = (M + 2) * (N + 2)) (hn : next.length = (M + 2) * (N + 2))
    (hnn : ∀ i, i ≤ M + 1 → ∀ j, j ≤ N + 1 → 0 ≤ get N state i j)
    (i j : Nat) (hi : 1 ≤ i ∧ i ≤ M) (hj : 1 ≤ j ∧ j ≤ N) :
    (get N (percolate_cpu_step M N state next).1 i j ≠ 0 ↔ get N state i j ≠ 0) ∧
    (get 1 negCell 1 1 ≠ 0 ∧ get 1 (percolate_cpu_step 1 1 negCell negCell).1 1 1 = 0) := by
  refine ⟨?_, by decide⟩
  rw [step_get_active M N state next hn hi hj]
  have hle := le_newval N state i j
  have h0 := hnn i (by omega) j (by omega)
  constructor
  · intro h hz
    exact h (newval_of_zero N state i j hz)
  · intro h
    omega

/-- Witness of C19 on the 2x2 grid `grid2`, at the fluid cell (2, 1) and with the
solid cell (1, 2) staying solid. -/
theorem C19_pattern_preserved_witness :
    (get 2 (percolate_cpu_step 2 2 grid2 grid2).1 2 1 ≠ 0 ↔ get 2 grid2 2 1 ≠ 0) ∧
    get 2 (percolate_cpu_step 2 2 grid2 grid2).1 1 2 = 0 :=
  ⟨(C19_pattern_preserved 2 2 (by decide) (by decide) grid2 grid2 (by decide) (by decide)
      (by decide) 2 1 (by decide) (by decide)).1, by decide⟩

end Percolation
